import Mathlib

/-!
Verification of the MP3 merge core (`tools/utils.py`, `tools/merge_utils.py`).

The Python code is shallowly embedded: file contents are lists of byte
values, the filesystem is a partial map from path strings to file data, and
each external `ffmpeg` invocation is abstracted by a Boolean oracle (the
code only observes the subprocess return code).  Functions keep their
Python names.  `os.path.join a b` is modelled as `a ++ "/" ++ b`, which
matches Python for the relative, slash-free folder names used throughout.
-/

/-- Model of `os.path.join` for a folder without a trailing slash. -/
def pathJoin (a b : String) : String := a ++ "/" ++ b

/-- Model of `os.path.basename`: the part of the path after the last slash. -/
def basename (p : String) : String :=
  String.mk ((p.data.reverse.takeWhile (fun c => c ≠ '/')).reverse)

/-- Byte string of an ASCII text, for writing concrete file contents. -/
def strBytes (s : String) : List Nat := s.data.map Char.toNat

/-- The decimal digit character for `d` (`0 ≤ d ≤ 9`). -/
def digitChar (d : Nat) : Char := Char.ofNat (48 + d)

/-- Most-significant-first decimal digits of `n`, as numbers; fuel-driven so
that the kernel can evaluate it. -/
def natDigitsAux : Nat → Nat → List Nat
  | 0, _ => []
  | fuel + 1, n => if n < 10 then [n] else natDigitsAux fuel (n / 10) ++ [n % 10]

/-- Most-significant-first decimal digits of `n`. -/
def natDigits (n : Nat) : List Nat := natDigitsAux (n + 1) n

/-- Model of Python decimal formatting of a nonnegative integer
(`f-string` interpolation of an `int`). -/
def natDecimal (n : Nat) : List Char := (natDigits n).map digitChar

/-- The output name `merged_<i>.mp3` inside `folder` (both concatenators
use this scheme, from `f"merged_{idx}.mp3"`). -/
def mergedName (folder : String) (i : Nat) : String :=
  pathJoin folder ("merged_" ++ String.mk (natDecimal i) ++ ".mp3")

/-- The output name `normalized_<basename p>` inside `folder`
(from `f"normalized_{os.path.basename(file_path)}"`). -/
def normalizedName (folder : String) (p : String) : String :=
  pathJoin folder ("normalized_" ++ basename p)

/-! ### Filesystem model -/

/-- Data stored at a path: a plain byte file or a ZIP archive with named
entries.  The archive's on-disk encoding is irrelevant to every claim, so
it is kept structured. -/
inductive FileData
  | bytes (content : List Nat)
  | zipArchive (entries : List (String × List Nat))
deriving DecidableEq

/-- A filesystem: paths to file data, `none` meaning the path is absent. -/
def Fs : Type := String → Option FileData

/-- Model of `os.path.isfile`. -/
def isfile (fs : Fs) (p : String) : Bool := (fs p).isSome

/-- The bytes obtained by reading path `p` (`open(p, "rb")` and reading to
the end).  Reads of absent paths do not occur in the code (guarded by
`isfile`); archives are never read back. -/
def readBytes (fs : Fs) (p : String) : List Nat :=
  match fs p with
  | some (FileData.bytes c) => c
  | _ => []

/-- Writing (or overwriting) path `p`. -/
def fsWrite (fs : Fs) (p : String) (d : FileData) : Fs :=
  fun q => if q = p then some d else fs q

/-! ### Audio Parameter Inspector (`Merge._get_mp3_params`,
`Merge.all_params_equal`) -/

/-- The environment abstracting `mutagen.mp3.MP3`: `some (b, s, c)` when
the header parses with bitrate `b`, sample rate `s`, channels `c`;
`none` when parsing raises. -/
def ParamsEnv : Type := String → Option (Nat × Nat × Nat)

/-- `Merge._get_mp3_params`: the parameter triple of a file, each field
`none` when the header could not be parsed (the `except` branch returns
`(None, None, None)`). -/
def get_mp3_params (env : ParamsEnv) (p : String) :
    Option Nat × Option Nat × Option Nat :=
  match env p with
  | some (b, s, c) => (some b, some s, some c)
  | none => (none, none, none)

/-- `Merge.all_params_equal`: `all(p == params[0] for p in params)`; the
generator is empty for an empty list, so `params[0]` is never evaluated
there and the result is `True`. -/
def all_params_equal (env : ParamsEnv) (files : List String) : Bool :=
  let params := files.map (get_mp3_params env)
  match params with
  | [] => true
  | p0 :: _ => params.all (fun p => p == p0)

/-! ### Grouping (`range(0, len(file_list), group_size)` slicing) -/

/-- Fuel-driven splitting into contiguous chunks of `g` (kernel-evaluable;
the fuel `l.length` suffices whenever `1 ≤ g`).  Models the loop
`for start in range(0, len(file_list), group_size):
   group = file_list[start : start + group_size]`,
which Python only runs with a positive `group_size`. -/
def chunksAux (g : Nat) : Nat → List α → List (List α)
  | 0, _ => []
  | _, [] => []
  | fuel + 1, a :: l => ((a :: l).take g) :: chunksAux g fuel ((a :: l).drop g)

/-- Contiguous groups of size `g` (the last group may be shorter). -/
def chunks (g : Nat) (l : List α) : List (List α) := chunksAux g l.length l

/-! ### Normalizer (`Merge.normalize_mp3_file_parallel`) -/

/-- One worker of `normalize_mp3_file_parallel`: the external transcoder
run on `files[idx]` is abstracted by the oracle `ok` on the index/path
pair (`ok = true` iff `subprocess.run(...).returncode == 0`); on success
the worker reports the output path, on failure `None`. -/
def normalizeOneFile (ok : Nat → String → Bool) (folder : String)
    (idx : Nat) (filePath : String) : Option String :=
  if ok idx filePath then some (normalizedName folder filePath) else none

/-- Handling of one completed future in the `as_completed` loop: the
result is stored at the future's own index of the accumulator; a falsy
result (`None`) leaves the slot unchanged. -/
def scheduleStep (ok : Nat → String → Bool) (folder : String)
    (files : List String) (acc : List (Option String)) (idx : Nat) :
    List (Option String) :=
  match files[idx]? with
  | some f =>
      match normalizeOneFile ok folder idx f with
      | some r => acc.set idx (some r)
      | none => acc
  | none => acc

/-- The `as_completed` loop of `normalize_mp3_file_parallel`, processing
the futures in the completion order `order` (a list of indices) over the
accumulator `[None] * len(files)`. -/
def runSchedule (ok : Nat → String → Bool) (folder : String)
    (files : List String) (order : List Nat) : List (Option String) :=
  order.foldl (scheduleStep ok folder files) (List.replicate files.length none)

/-- `Merge.normalize_mp3_file_parallel` with the reference completion
order; the claim theorem shows every permutation gives the same result. -/
def normalize_mp3_file_parallel (ok : Nat → String → Bool)
    (files : List String) (folder : String) : List (Option String) :=
  runSchedule ok folder files (List.range files.length)

/-! ### Byte Concatenator (`Merge.merge_files_in_groups`) -/

/-- Bytes written for one group: members absent from the filesystem are
skipped (`if not os.path.isfile(file_path): continue`), present members
are copied whole (the 1 MiB read loop concatenates to the full file). -/
def groupContent (fs : Fs) (group : List String) : List Nat :=
  group.foldl
    (fun acc p => if isfile fs p then acc ++ readBytes fs p else acc) []

/-- The group loop of `merge_files_in_groups`, starting at group index
`idx`: each group's output file is opened for writing (truncated to
empty) and then filled with the group's bytes; the path is appended to
the result unconditionally. -/
def mergeGroupsFrom (fs : Fs) (idx : Nat) (folder : String) :
    List (List String) → List String × Fs
  | [] => ([], fs)
  | g :: gs =>
      let name := mergedName folder idx
      let fsT := fsWrite fs name (FileData.bytes [])
      let fs' := fsWrite fsT name (FileData.bytes (groupContent fsT g))
      let rest := mergeGroupsFrom fs' (idx + 1) folder gs
      (name :: rest.1, rest.2)

/-- `Merge.merge_files_in_groups`: byte-level concatenation per group;
returns the produced paths and the resulting filesystem. -/
def merge_files_in_groups (fs : Fs) (fileList : List String)
    (groupSize : Nat) (folder : String) : List String × Fs :=
  mergeGroupsFrom fs 1 folder (chunks groupSize fileList)

/-! ### Transcoder-Concat (`Merge.merge_mp3_groups_ffmpeg`) -/

/-- The group loop of `merge_mp3_groups_ffmpeg`, starting at group index
`idx`.  The element type is `Option String` because the sole caller can
pass `None` entries through (Python is untyped; a `None` is interpolated
into the manifest as the text `None`).  The external concat invocation on
a group's manifest is abstracted by the oracle `ok` (true iff the
subprocess exits 0); a failed group contributes no path, and the index
advances per group either way. -/
def mergeFfmpegFrom (ok : List (Option String) → Bool) (idx : Nat)
    (folder : String) : List (List (Option String)) → List String
  | [] => []
  | g :: gs =>
      if ok g then mergedName folder idx :: mergeFfmpegFrom ok (idx + 1) folder gs
      else mergeFfmpegFrom ok (idx + 1) folder gs

/-- `Merge.merge_mp3_groups_ffmpeg`: ffmpeg-concat per group, returning
only the successful groups' output paths. -/
def merge_mp3_groups_ffmpeg (ok : List (Option String) → Bool)
    (fileList : List (Option String)) (groupSize : Nat) (folder : String) :
    List String :=
  mergeFfmpegFrom ok 1 folder (chunks groupSize fileList)

/-! ### Orchestrator (`smart_merge_mp3_files`) and Archive Builder
(`create_zip`), from `tools/utils.py` -/

/-- `smart_merge_mp3_files`: probe with `all_params_equal`; on the fast
path byte-concatenate the original paths, on the slow path normalize and
hand the normalizer's result straight to `merge_mp3_groups_ffmpeg`. -/
def smart_merge_mp3_files (env : ParamsEnv) (normOk : Nat → String → Bool)
    (ffmpegOk : List (Option String) → Bool) (fs : Fs)
    (filePaths : List String) (filesCount : Nat) (mergedFolder : String) :
    List String :=
  if all_params_equal env filePaths then
    (merge_files_in_groups fs filePaths filesCount mergedFolder).1
  else
    let normalizedFiles := normalize_mp3_file_parallel normOk filePaths mergedFolder
    merge_mp3_groups_ffmpeg ffmpegOk normalizedFiles filesCount mergedFolder

/-- The error message raised by `create_zip` on an empty list. -/
def zipEmptyMsg : String := "Нет файлов для архивации."

/-- `create_zip`: raises (`Except.error`) before touching the filesystem
when the list is empty; otherwise writes the archive containing every
listed file that is present on disk, under its base name, and returns the
archive path. -/
def create_zip (fs : Fs) (mergedFolder : String)
    (mergedFiles : List String) : Except String String × Fs :=
  let archivePath := pathJoin mergedFolder "merged_files.zip"
  if mergedFiles.isEmpty then (Except.error zipEmptyMsg, fs)
  else
    let entries := mergedFiles.filterMap fun f =>
      if isfile fs f then some (basename f, readBytes fs f) else none
    (Except.ok archivePath, fsWrite fs archivePath (FileData.zipArchive entries))

/-! ### Auxiliary definitions used only in statements -/

/-- The empty filesystem, used by concrete instances. -/
def fsEmpty : Fs := fun _ => none

/-- The value the worker for index `i` of `normalize_mp3_file_parallel`
reports (used to state position-stability). -/
def normTarget (ok : Nat → String → Bool) (folder : String)
    (files : List String) (i : Nat) : Option String :=
  normalizeOneFile ok folder i (files.getD i "")

/-- Value of a most-significant-first decimal digit list. -/
def digitsVal (l : List Nat) : Nat := l.foldl (fun acc d => acc * 10 + d) 0

/-- Concrete five-file filesystem for the fast-path witness example. -/
def fsFive : Fs := fun p =>
  if p = "u/f0.mp3" then some (FileData.bytes (strBytes "FILE0-"))
  else if p = "u/f1.mp3" then some (FileData.bytes (strBytes "FILE1-"))
  else if p = "u/f2.mp3" then some (FileData.bytes (strBytes "FILE2-"))
  else if p = "u/f3.mp3" then some (FileData.bytes (strBytes "FILE3-"))
  else if p = "u/f4.mp3" then some (FileData.bytes (strBytes "FILE4-"))
  else none

/-- Concrete one-file filesystem for the missing-member witness example. -/
def fsA : Fs := fun p =>
  if p = "t/a.mp3" then some (FileData.bytes (strBytes "A-")) else none


/-! ### Filename Sanitizer (`Merge.normalize_filename`) -/

/-- Model of Python's regex `\\w` (`re.UNICODE`) on the character
repertoire exercised in this development: ASCII alphanumerics and the
underscore, plus the Hangul jamo and Hangul syllable blocks (category Lo,
word characters in Python).  Characters of other scripts do not occur in
the theorems below and are classified as non-word. -/
def isWordChar (c : Char) : Bool :=
  (('a' ≤ c && c ≤ 'z') || ('A' ≤ c && c ≤ 'Z') || ('0' ≤ c && c ≤ '9')
    || c = '_')
  || (0x1100 ≤ c.toNat && c.toNat ≤ 0x11FF)
  || (0xAC00 ≤ c.toNat && c.toNat ≤ 0xD7A3)

/-- Model of Python's regex `\\s` and of the default `str.strip` set: the
ASCII whitespace characters (the repertoire used here has no exotic
Unicode whitespace). -/
def isSpaceChar (c : Char) : Bool :=
  c = ' ' || c = '\t' || c = '\n' || c = '\x0b' || c = '\x0c' || c = '\r'

/-- Characters surviving `re.sub(r"[^\\w\\s.-]", "", ...)`. -/
def keptChar (c : Char) : Bool :=
  isWordChar c || isSpaceChar c || c = '.' || c = '-'

/-- Leading Hangul consonant jamo (U+1100 to U+1112). -/
def isJamoL (c : Char) : Bool := 0x1100 ≤ c.toNat && c.toNat ≤ 0x1112

/-- Hangul vowel jamo (U+1161 to U+1175). -/
def isJamoV (c : Char) : Bool := 0x1161 ≤ c.toNat && c.toNat ≤ 0x1175

/-- Algorithmic Hangul LV composition of UAX 15. -/
def composeLV (l v : Char) : Char :=
  Char.ofNat (0xAC00 + ((l.toNat - 0x1100) * 21 + (v.toNat - 0x1161)) * 28)

/-- Composition pass of the NFKC model: adjacent L and V jamo become the
corresponding precomposed LV syllable. -/
def hangulCompose : List Char → List Char
  | [] => []
  | [c] => [c]
  | a :: b :: rest =>
    if isJamoL a && isJamoV b then composeLV a b :: hangulCompose rest
    else a :: hangulCompose (b :: rest)

/-- Model of `unicodedata.normalize("NFKC", ...)` on the repertoire used
here: ASCII strings are NFKC-invariant (no decompositions and no
compositions among ASCII characters), and adjacent Hangul L and V jamo
compose to the LV syllable per the algorithmic Hangul composition of
UAX 15.  Trailing-T composition and the rest of Unicode normalization
concern characters outside this development's repertoire. -/
def nfkc (l : List Char) : List Char := hangulCompose l

/-- Removal of a trailing run, for the anchored substitutions
`_+$` and `\\.+$`. -/
def dropTrailing (p : Char → Bool) (l : List Char) : List Char :=
  (l.reverse.dropWhile p).reverse

/-- Model of `str.strip()`. -/
def stripChars (l : List Char) : List Char :=
  dropTrailing isSpaceChar (l.dropWhile isSpaceChar)

/-- Worker for `re.sub(r"\\s+", "_", ...)`: each maximal whitespace run
becomes one underscore; the flag records whether the previous character
was whitespace. -/
def squashSpacesGo : Bool → List Char → List Char
  | _, [] => []
  | prevSpace, c :: cs =>
    if isSpaceChar c then
      if prevSpace then squashSpacesGo true cs
      else '_' :: squashSpacesGo true cs
    else c :: squashSpacesGo false cs

/-- Model of `re.sub(r"\\s+", "_", ...)`. -/
def squashSpaces (l : List Char) : List Char := squashSpacesGo false l

/-- Worker for `re.sub(r"_+\\.", ".", ...)`: `pending` counts underscores
read but not yet emitted; they are discarded when a dot follows and
re-emitted otherwise. -/
def dropUscoreDotGo : Nat → List Char → List Char
  | pending, [] => List.replicate pending '_'
  | pending, c :: cs =>
    if c = '_' then dropUscoreDotGo (pending + 1) cs
    else if c = '.' then '.' :: dropUscoreDotGo 0 cs
    else List.replicate pending '_' ++ (c :: dropUscoreDotGo 0 cs)

/-- Model of `re.sub(r"_+\\.", ".", ...)`. -/
def dropUscoreDot (l : List Char) : List Char := dropUscoreDotGo 0 l

/-- Worker for `re.sub(r"__+", "_", ...)`: each maximal underscore run is
collapsed to a single underscore. -/
def squashUscoresGo : Bool → List Char → List Char
  | _, [] => []
  | prevU, c :: cs =>
    if c = '_' then
      if prevU then squashUscoresGo true cs
      else '_' :: squashUscoresGo true cs
    else c :: squashUscoresGo false cs

/-- Model of `re.sub(r"__+", "_", ...)`. -/
def squashUscores (l : List Char) : List Char := squashUscoresGo false l

/-- ASCII alphanumeric, the extension alphabet `[A-Za-z0-9]` of the last
substitution. -/
def isExtChar (c : Char) : Bool :=
  ('a' ≤ c && c ≤ 'z') || ('A' ≤ c && c ≤ 'Z') || ('0' ≤ c && c ≤ '9')

/-- The maximal extension-character run at the end of the string (read on
the reversed list). -/
def extOf (l : List Char) : List Char := l.reverse.takeWhile isExtChar

/-- What precedes the trailing extension run, reversed. -/
def restOf (l : List Char) : List Char := l.reverse.dropWhile isExtChar

/-- The maximal dot run just before the trailing extension run. -/
def dotsOf (l : List Char) : List Char :=
  (restOf l).takeWhile (fun c => c = '.')

/-- What precedes the dot run, reversed. -/
def preOf (l : List Char) : List Char :=
  (restOf l).dropWhile (fun c => c = '.')

/-- Matching condition of `re.sub(r"\\.{2,}(\\.[A-Za-z0-9]{1,5})$", ...)`:
the string ends in at least three dots followed by one to five extension
characters. -/
def multiDotCond (l : List Char) : Bool :=
  1 ≤ (extOf l).length && (extOf l).length ≤ 5 && 3 ≤ (dotsOf l).length

/-- Model of `re.sub(r"\\.{2,}(\\.[A-Za-z0-9]{1,5})$", r"\\1", ...)`: when
the pattern matches, the dot run collapses to the single dot of the
captured group. -/
def fixMultiDotExt (l : List Char) : List Char :=
  if multiDotCond l then (preOf l).reverse ++ ('.' :: (extOf l).reverse)
  else l

/-- The character-level pipeline of `Merge.normalize_filename`, one stage
per line of the Python function, in source order. -/
def normalizeFilenameChars (l : List Char) : List Char :=
  fixMultiDotExt (squashUscores (dropTrailing (fun c => c = '.')
    (List.dropWhile (fun c => c = '.') (dropTrailing (fun c => c = '_')
      (dropUscoreDot (squashSpaces (stripChars
        (List.filter keptChar (nfkc l)))))))))

/-- `Merge.normalize_filename`. -/
def normalize_filename : String → String
  | String.mk l => String.mk (normalizeFilenameChars l)

/-- No `_` immediately followed by `.` (the `_+\.` substitution is a
no-op exactly on such lists). -/
def noUscoreDot (l : List Char) : Prop :=
  l.Chain' (fun a b => ¬(a = '_' ∧ b = '.'))

/-- No two adjacent underscores (the `__+` substitution is a no-op
exactly on such lists). -/
def noDoubleUscore (l : List Char) : Prop :=
  l.Chain' (fun a b => ¬(a = '_' ∧ b = '_'))

/-- The pipeline stages of `normalizeFilenameChars` after the space
squash, as one function (stages 5-10 of `Merge.normalize_filename`). -/
def pipeTail (y : List Char) : List Char :=
  fixMultiDotExt (squashUscores (dropTrailing (fun c => c = '.')
    (List.dropWhile (fun c => c = '.') (dropTrailing (fun c => c = '_')
      (dropUscoreDot y)))))

/-! ## Theorems -/

/-- Characterization of `all_params_equal`: true exactly when every file's
triple matches the first file's. -/
theorem all_params_equal_iff (env : ParamsEnv) (files : List String) :
    all_params_equal env files = true ↔
      ∀ f ∈ files, get_mp3_params env f = get_mp3_params env files.headI := by
  cases files with
  | nil => simp [all_params_equal]
  | cons f0 rest => simp [all_params_equal, List.all_eq_true]

/-- C7: the compatibility oracle `all_params_equal` returns true iff every
path's parameter triple equals the first path's triple, and it returns
true for the empty list and for any singleton list. -/
theorem all_params_equal_spec (env : ParamsEnv) (files : List String) :
    (all_params_equal env files = true ↔
      ∀ f ∈ files, get_mp3_params env f = get_mp3_params env files.headI) ∧
    all_params_equal env [] = true ∧
    ∀ f, all_params_equal env [f] = true :=
  ⟨all_params_equal_iff env files, rfl, fun f => by simp [all_params_equal]⟩

/-- C7 witness: concrete evaluation through the theorem. -/
theorem all_params_equal_spec_witness :
    all_params_equal (fun _ => some (192000, 44100, 2))
      ["a.mp3", "b.mp3"] = true :=
  (all_params_equal_spec (fun _ => some (192000, 44100, 2))
    ["a.mp3", "b.mp3"]).1.mpr (by decide)

/-- C3 counterexample: a list of two files, both with unreadable headers,
satisfies the claim's hypotheses (length at least two, at least one
unreadable file), yet `all_params_equal` returns `true` — both files map
to the sentinel `(None, None, None)` — and `smart_merge_mp3_files`
consequently takes the fast byte-concatenation path. -/
theorem all_params_equal_unreadable_cx :
    ((fun _ => none : ParamsEnv) "a.mp3" = none) ∧
    2 ≤ (["a.mp3", "b.mp3"] : List String).length ∧
    all_params_equal (fun _ => none) ["a.mp3", "b.mp3"] = true ∧
    smart_merge_mp3_files (fun _ => none) (fun _ _ => true) (fun _ => true)
        fsEmpty ["a.mp3", "b.mp3"] 2 "m" =
      (merge_files_in_groups fsEmpty ["a.mp3", "b.mp3"] 2 "m").1 := by
  decide

/-- C3 (amended): an unreadable header is mapped to the sentinel triple
`(None, None, None)`, so `all_params_equal` returns false whenever the
list mixes an unreadable file with a readable one — but a list whose
files are all unreadable compares equal (sentinel against sentinel) and
returns true, taking the fast path. -/
theorem all_params_equal_unreadable_mixed (env : ParamsEnv)
    (files : List String) :
    ((∃ f ∈ files, env f = none) → (∃ g ∈ files, env g ≠ none) →
      all_params_equal env files = false) ∧
    ((∀ f ∈ files, env f = none) → all_params_equal env files = true) := by
  constructor
  · rintro ⟨f, hf, hfn⟩ ⟨g, hg, hgn⟩
    cases hall : all_params_equal env files with
    | false => rfl
    | true =>
      exfalso
      have hiff := (all_params_equal_iff env files).mp hall
      have h1 := hiff f hf
      have h2 := hiff g hg
      rw [← h2] at h1
      simp only [get_mp3_params, hfn] at h1
      cases hge : env g with
      | none => exact hgn hge
      | some t => rw [hge] at h1; simp at h1
  · intro hall
    refine (all_params_equal_iff env files).mpr ?_
    intro f hf
    cases files with
    | nil => cases hf
    | cons f0 rest =>
      simp [get_mp3_params, hall f hf, hall f0 (by simp)]

/-- C3 amended witness: a mixed readable/unreadable pair yields false; an
all-unreadable pair yields true. -/
theorem all_params_equal_unreadable_mixed_witness :
    all_params_equal
        (fun p => if p = "a.mp3" then some (192000, 44100, 2) else none)
        ["a.mp3", "b.mp3"] = false ∧
    all_params_equal (fun _ => none) ["x.mp3", "y.mp3"] = true :=
  ⟨(all_params_equal_unreadable_mixed _ _).1
      ⟨"b.mp3", by decide, by decide⟩ ⟨"a.mp3", by decide, by decide⟩,
    (all_params_equal_unreadable_mixed (fun _ => none) _).2 (fun f _ => rfl)⟩

/-- C5: `create_zip` errors out exactly on the empty file list, leaves the
filesystem untouched in that case, and on a non-empty list returns the
well-known archive path with the archive present on disk. -/
theorem create_zip_spec (fs : Fs) (folder : String) (files : List String) :
    ((create_zip fs folder files).1 = Except.error zipEmptyMsg ↔ files = []) ∧
    (create_zip fs folder []).2 = fs ∧
    (files ≠ [] →
      (create_zip fs folder files).1 =
        Except.ok (pathJoin folder "merged_files.zip") ∧
      isfile (create_zip fs folder files).2
        (pathJoin folder "merged_files.zip") = true) := by
  refine ⟨?_, rfl, ?_⟩
  · cases files with
    | nil => simp [create_zip]
    | cons a l => simp [create_zip]
  · intro h
    cases files with
    | nil => exact absurd rfl h
    | cons a l => exact ⟨rfl, by simp [create_zip, isfile, fsWrite]⟩

/-- C5 witness: a singleton list produces the archive path. -/
theorem create_zip_spec_witness :
    (create_zip fsEmpty "m" ["x.mp3"]).1 =
      Except.ok (pathJoin "m" "merged_files.zip") :=
  ((create_zip_spec fsEmpty "m" ["x.mp3"]).2.2 (by decide)).1

/-- C2 counterexample: three inputs, group size 2, the transcoder failing
on group 1 and succeeding on group 2 — the sole returned file is
`merged_2.mp3`, not the claimed `merged_1.mp3`. -/
theorem merge_groups_ffmpeg_numbering_cx :
    merge_mp3_groups_ffmpeg (fun g => g == [some "c"])
        [some "a", some "b", some "c"] 2 "out" = ["out/merged_2.mp3"] ∧
    ("out/merged_2.mp3" : String) ≠ "out/merged_1.mp3" := by
  decide

/-- Unrolling of the ffmpeg-concat loop against `enumFrom`. -/
theorem mergeFfmpegFrom_eq (ok : List (Option String) → Bool)
    (folder : String) (gs : List (List (Option String))) :
    ∀ i, mergeFfmpegFrom ok i folder gs =
      (gs.enumFrom i).filterMap
        (fun p => if ok p.2 then some (mergedName folder p.1) else none) := by
  induction gs with
  | nil => intro i; rfl
  | cons g gs ih =>
    intro i
    by_cases h : ok g <;> simp [mergeFfmpegFrom, h, ih]

/-- C2 (amended): output names follow the 1-based group index over all
groups — the index advances also for failed groups — and the returned
list keeps `merged_<i>.mp3` exactly for the successful groups `i`, in
order; numbering is not dense over successes. -/
theorem merge_mp3_groups_ffmpeg_group_index_naming
    (ok : List (Option String) → Bool) (fileList : List (Option String))
    (groupSize : Nat) (folder : String) :
    merge_mp3_groups_ffmpeg ok fileList groupSize folder =
      ((chunks groupSize fileList).enumFrom 1).filterMap
        (fun p => if ok p.2 then some (mergedName folder p.1) else none) :=
  mergeFfmpegFrom_eq ok folder (chunks groupSize fileList) 1

/-- One schedule step preserves the accumulator length. -/
theorem scheduleStep_length (ok : Nat → String → Bool) (folder : String)
    (files : List String) (acc : List (Option String)) (idx : Nat) :
    (scheduleStep ok folder files acc idx).length = acc.length := by
  cases hf : files[idx]? with
  | none => simp [scheduleStep, hf]
  | some f =>
    cases hn : normalizeOneFile ok folder idx f with
    | none => simp [scheduleStep, hf, hn]
    | some r => simp [scheduleStep, hf, hn]

/-- A schedule step leaves every other index unchanged. -/
theorem scheduleStep_getElem_ne (ok : Nat → String → Bool) (folder : String)
    (files : List String) (acc : List (Option String)) (a i : Nat)
    (hia : i ≠ a) :
    (scheduleStep ok folder files acc a)[i]? = acc[i]? := by
  cases hf : files[a]? with
  | none => simp [scheduleStep, hf]
  | some f =>
    cases hn : normalizeOneFile ok folder a f with
    | none => simp [scheduleStep, hf, hn]
    | some r =>
      simp [scheduleStep, hf, hn, List.getElem?_set_ne (fun h => hia h.symm)]

/-- A schedule step writes its own index (when the worker succeeded). -/
theorem scheduleStep_getElem_self (ok : Nat → String → Bool) (folder : String)
    (files : List String) (acc : List (Option String)) (i : Nat)
    (hi : i < files.length) (hlen : acc.length = files.length) :
    (scheduleStep ok folder files acc i)[i]? =
      match normTarget ok folder files i with
      | some r => some (some r)
      | none => acc[i]? := by
  cases hget : files[i]? with
  | none =>
    rw [List.getElem?_eq_none_iff] at hget
    omega
  | some f =>
    have hf : normTarget ok folder files i = normalizeOneFile ok folder i f := by
      unfold normTarget
      rw [List.getD_eq_getElem?_getD, hget]
      rfl
    rw [hf]
    cases ht : normalizeOneFile ok folder i f with
    | some r => simp [scheduleStep, hget, ht, List.getElem?_set_eq_of_lt _ (hlen ▸ hi)]
    | none => simp [scheduleStep, hget, ht]

/-- Folding any schedule preserves the accumulator length. -/
theorem runSchedule_foldl_length (ok : Nat → String → Bool) (folder : String)
    (files : List String) (order : List Nat) (acc : List (Option String)) :
    (order.foldl (scheduleStep ok folder files) acc).length = acc.length := by
  induction order generalizing acc with
  | nil => rfl
  | cons a order ih => rw [List.foldl_cons, ih, scheduleStep_length]

/-- Pointwise description of the `as_completed` fold for a duplicate-free
schedule. -/
theorem runSchedule_foldl_getElem (ok : Nat → String → Bool) (folder : String)
    (files : List String) :
    ∀ (order : List Nat) (acc : List (Option String)),
      acc.length = files.length → order.Nodup →
      ∀ i, i < files.length →
        (order.foldl (scheduleStep ok folder files) acc)[i]? =
          if i ∈ order then
            match normTarget ok folder files i with
            | some r => some (some r)
            | none => acc[i]?
          else acc[i]? := by
  intro order
  induction order with
  | nil => intro acc _ _ i _; simp
  | cons a order ih =>
    intro acc hlen hnd i hi
    rw [List.foldl_cons]
    have hnd' := hnd.of_cons
    have hlen' : (scheduleStep ok folder files acc a).length = files.length := by
      rw [scheduleStep_length]; exact hlen
    rw [ih (scheduleStep ok folder files acc a) hlen' hnd' i hi]
    by_cases hia : i = a
    · subst hia
      have hnotmem : i ∉ order := (List.nodup_cons.mp hnd).1
      have hmem : i ∈ i :: order := List.mem_cons_self i order
      simp only [hnotmem, if_false, hmem, if_true]
      exact scheduleStep_getElem_self ok folder files acc i hi hlen
    · have hmem : (i ∈ a :: order) = (i ∈ order) := by
        simp [List.mem_cons, hia]
      simp only [scheduleStep_getElem_ne ok folder files acc a i hia, hmem]

/-- Evaluation of `runSchedule` under any schedule that completes each
future exactly once. -/
theorem runSchedule_getElem (ok : Nat → String → Bool) (folder : String)
    (files : List String) (order : List Nat)
    (hperm : List.Perm order (List.range files.length)) :
    ∀ i, (runSchedule ok folder files order)[i]? =
      if i < files.length then some (normTarget ok folder files i) else none := by
  intro i
  have hnd : order.Nodup := hperm.nodup_iff.mpr (List.nodup_range _)
  by_cases hi : i < files.length
  · rw [runSchedule, runSchedule_foldl_getElem ok folder files order _
      (by simp) hnd i hi]
    have hmem : i ∈ order := hperm.mem_iff.mpr (List.mem_range.mpr hi)
    simp only [hmem, if_true, hi]
    cases ht : normTarget ok folder files i with
    | some r => rfl
    | none => simp [List.getElem?_replicate, hi]
  · rw [if_neg hi]
    rw [List.getElem?_eq_none_iff]
    rw [runSchedule, runSchedule_foldl_length]
    simp only [List.length_replicate]
    omega

/-- C8: `normalize_mp3_file_parallel` is total (per-item transcoder
failures end up as `None`, never as an exception) and position-stable:
whatever the completion order of the futures, the result equals the
reference run; it has the input's length, and position `i` holds
`normalized_<basename(files[i])>` under the output folder when the
transcoder succeeded on item `i`, `None` when it failed. -/
theorem normalize_parallel_schedule (ok : Nat → String → Bool)
    (files : List String) (folder : String) (order : List Nat)
    (hperm : List.Perm order (List.range files.length)) :
    runSchedule ok folder files order =
      normalize_mp3_file_parallel ok files folder ∧
    (normalize_mp3_file_parallel ok files folder).length = files.length ∧
    ∀ i, i < files.length →
      (normalize_mp3_file_parallel ok files folder)[i]? =
        some (if ok i (files.getD i "")
          then some (normalizedName folder (files.getD i "")) else none) := by
  have hself : List.Perm (List.range files.length) (List.range files.length) :=
    List.Perm.refl _
  refine ⟨?_, ?_, ?_⟩
  · apply List.ext_getElem?
    intro i
    rw [runSchedule_getElem ok folder files order hperm i,
      normalize_mp3_file_parallel,
      runSchedule_getElem ok folder files _ hself i]
  · rw [normalize_mp3_file_parallel, runSchedule, runSchedule_foldl_length]
    simp
  · intro i hi
    rw [normalize_mp3_file_parallel, runSchedule_getElem ok folder files _ hself i,
      if_pos hi]
    rfl

/-- C8 witness: two files handled in reversed completion order, with the
transcoder failing on the second, still give the position-stable result. -/
theorem normalize_parallel_schedule_witness :
    runSchedule (fun i _ => i == 0) "m" ["/u/a.mp3", "/u/b.mp3"] [1, 0] =
      normalize_mp3_file_parallel (fun i _ => i == 0) ["/u/a.mp3", "/u/b.mp3"] "m" ∧
    normalize_mp3_file_parallel (fun i _ => i == 0) ["/u/a.mp3", "/u/b.mp3"] "m" =
      [some "m/normalized_a.mp3", none] :=
  ⟨(normalize_parallel_schedule (fun i _ => i == 0) ["/u/a.mp3", "/u/b.mp3"]
      "m" [1, 0] (by decide)).1, by decide⟩

/-- C1 counterexample: with the two files' parameters unequal (slow path)
and normalization failing on the first file, the normalizer returns
`[None, normalized_b]`; `smart_merge_mp3_files` hands this list — the
`None` still occupying position 0 of group 1 — to the concatenator, whose
group fails, returning `[]`; had the nulls been filtered out first, the
concatenator would have returned `merged_1.mp3`. -/
theorem smart_merge_passes_nulls_cx :
    all_params_equal
        (fun p => if p = "a.mp3" then some (192000, 44100, 2) else none)
        ["a.mp3", "b.mp3"] = false ∧
    normalize_mp3_file_parallel (fun i _ => i == 1) ["a.mp3", "b.mp3"] "m" =
      [none, some "m/normalized_b.mp3"] ∧
    smart_merge_mp3_files
        (fun p => if p = "a.mp3" then some (192000, 44100, 2) else none)
        (fun i _ => i == 1) (fun g => g.all Option.isSome) fsEmpty
        ["a.mp3", "b.mp3"] 2 "m" = [] ∧
    merge_mp3_groups_ffmpeg (fun g => g.all Option.isSome)
        ((normalize_mp3_file_parallel (fun i _ => i == 1)
          ["a.mp3", "b.mp3"] "m").reduceOption.map some) 2 "m" =
      ["m/merged_1.mp3"] := by
  decide

/-- C1 (amended): on the slow path `smart_merge_mp3_files` passes the
normalizer's full position-stable result — null entries included — to
`merge_mp3_groups_ffmpeg`; no filtering occurs, so a failed item's null
occupies its group position (such groups then stand or fall with the
transcoder's verdict on their manifest). -/
theorem smart_merge_slow_path_unfiltered (env : ParamsEnv)
    (normOk : Nat → String → Bool) (ffmpegOk : List (Option String) → Bool)
    (fs : Fs) (files : List String) (n : Nat) (folder : String)
    (h : all_params_equal env files = false) :
    smart_merge_mp3_files env normOk ffmpegOk fs files n folder =
      merge_mp3_groups_ffmpeg ffmpegOk
        (normalize_mp3_file_parallel normOk files folder) n folder ∧
    (normalize_mp3_file_parallel normOk files folder).length = files.length ∧
    ∀ i, i < files.length →
      (normalize_mp3_file_parallel normOk files folder)[i]? =
        some (if normOk i (files.getD i "")
          then some (normalizedName folder (files.getD i "")) else none) := by
  refine ⟨?_,
    (normalize_parallel_schedule normOk files folder _ (List.Perm.refl _)).2⟩
  rw [smart_merge_mp3_files, if_neg (by simp [h])]

/-- C1 amended witness: the slow-path equation evaluated concretely. -/
theorem smart_merge_slow_path_unfiltered_witness :
    smart_merge_mp3_files
        (fun p => if p = "a.mp3" then some (192000, 44100, 2) else none)
        (fun i _ => i == 1) (fun g => g.all Option.isSome) fsEmpty
        ["a.mp3", "b.mp3"] 2 "m" =
      merge_mp3_groups_ffmpeg (fun g => g.all Option.isSome)
        (normalize_mp3_file_parallel (fun i _ => i == 1)
          ["a.mp3", "b.mp3"] "m") 2 "m" :=
  (smart_merge_slow_path_unfiltered _ _ _ fsEmpty ["a.mp3", "b.mp3"] 2 "m"
    (by decide)).1
theorem digitsVal_append_single (l : List Nat) (d : Nat) :
    digitsVal (l ++ [d]) = digitsVal l * 10 + d := by
  simp [digitsVal, List.foldl_append]

theorem natDigitsAux_val : ∀ (fuel n : Nat), n < fuel →
    digitsVal (natDigitsAux fuel n) = n := by
  intro fuel
  induction fuel with
  | zero => intro n h; omega
  | succ fuel ih =>
    intro n h
    by_cases h10 : n < 10
    · rw [natDigitsAux, if_pos h10]
      simp only [digitsVal, List.foldl_cons, List.foldl_nil]
      omega
    · rw [natDigitsAux, if_neg h10, digitsVal_append_single, ih (n / 10) (by omega)]
      omega

theorem natDigits_val (n : Nat) : digitsVal (natDigits n) = n :=
  natDigitsAux_val (n + 1) n (Nat.lt_succ_self n)

theorem natDigitsAux_lt : ∀ (fuel n : Nat), ∀ d ∈ natDigitsAux fuel n, d < 10 := by
  intro fuel
  induction fuel with
  | zero => intro n d hd; cases hd
  | succ fuel ih =>
    intro n d hd
    by_cases h10 : n < 10
    · simp [natDigitsAux, h10] at hd
      omega
    · rw [natDigitsAux, if_neg h10] at hd
      rcases List.mem_append.mp hd with h | h
      · exact ih _ _ h
      · simp at h
        omega

theorem digitChar_toNat (d : Nat) (hd : d < 10) :
    (digitChar d).toNat = 48 + d := by
  interval_cases d <;> rfl

theorem natDecimal_inj (m n : Nat) (h : natDecimal m = natDecimal n) : m = n := by
  have hd : natDigits m = natDigits n := by
    have hlen : (natDigits m).length = (natDigits n).length := by
      have := congrArg List.length h
      simpa [natDecimal] using this
    apply List.ext_getElem hlen
    intro i h1 h2
    have := congrArg (fun l => l[i]?) h
    simp only [natDecimal, List.getElem?_map] at this
    rw [List.getElem?_eq_getElem h1, List.getElem?_eq_getElem h2] at this
    simp only [Option.map_some'] at this
    have hchar : digitChar ((natDigits m)[i]) = digitChar ((natDigits n)[i]) :=
      Option.some.inj this
    have hm : (natDigits m)[i] < 10 :=
      natDigitsAux_lt _ _ _ (List.getElem_mem h1)
    have hn : (natDigits n)[i] < 10 :=
      natDigitsAux_lt _ _ _ (List.getElem_mem h2)
    have := congrArg Char.toNat hchar
    rw [digitChar_toNat _ hm, digitChar_toNat _ hn] at this
    omega
  have := congrArg digitsVal hd
  rwa [natDigits_val, natDigits_val] at this

theorem mergedName_inj (folder : String) (i j : Nat)
    (h : mergedName folder i = mergedName folder j) : i = j := by
  have hdata := congrArg String.data h
  simp only [mergedName, pathJoin, String.data_append] at hdata
  have h1 := List.append_cancel_left hdata
  have h2 := List.append_cancel_right h1
  have h3 := List.append_cancel_left h2
  exact natDecimal_inj i j h3

theorem fsWrite_self (fs : Fs) (p : String) (d : FileData) :
    fsWrite fs p d p = some d := by simp [fsWrite]

theorem fsWrite_ne (fs : Fs) (p q : String) (d : FileData) (h : q ≠ p) :
    fsWrite fs p d q = fs q := by simp [fsWrite, h]

theorem chunksAux_congr (g : Nat) (hg : 1 ≤ g) :
    ∀ (fuel fuel' : Nat) (l : List α), l.length ≤ fuel → l.length ≤ fuel' →
      chunksAux g fuel l = chunksAux g fuel' l := by
  intro fuel
  induction fuel with
  | zero =>
    intro fuel' l h h'
    have hl : l = [] := List.eq_nil_of_length_eq_zero (by omega)
    subst hl
    cases fuel' <;> rfl
  | succ fuel ih =>
    intro fuel' l h h'
    cases l with
    | nil => cases fuel' <;> rfl
    | cons a l =>
      cases fuel' with
      | zero => simp at h'
      | succ fuel' =>
        have e1 : chunksAux g (fuel + 1) (a :: l) =
            ((a :: l).take g) :: chunksAux g fuel ((a :: l).drop g) := rfl
        have e2 : chunksAux g (fuel' + 1) (a :: l) =
            ((a :: l).take g) :: chunksAux g fuel' ((a :: l).drop g) := rfl
        rw [e1, e2]
        congr 1
        apply ih
        · simp only [List.length_drop, List.length_cons] at h ⊢; omega
        · simp only [List.length_drop, List.length_cons] at h' ⊢; omega

theorem chunks_cons (g : Nat) (hg : 1 ≤ g) (a : α) (l : List α) :
    chunks g (a :: l) = ((a :: l).take g) :: chunks g ((a :: l).drop g) := by
  have e1 : chunks g (a :: l) =
      ((a :: l).take g) :: chunksAux g l.length ((a :: l).drop g) := rfl
  rw [e1, chunks]
  congr 1
  apply chunksAux_congr g hg
  · simp only [List.length_drop, List.length_cons]; omega
  · exact le_rfl

theorem chunks_join (g : Nat) (hg : 1 ≤ g) (l : List α) :
    (chunks g l).flatten = l := by
  suffices h : ∀ (n : Nat) (l : List α), l.length ≤ n → (chunks g l).flatten = l from
    h l.length l le_rfl
  intro n
  induction n with
  | zero =>
    intro l hl
    have : l = [] := List.eq_nil_of_length_eq_zero (by omega)
    subst this; rfl
  | succ n ih =>
    intro l hl
    cases l with
    | nil => rfl
    | cons a l =>
      rw [chunks_cons g hg, List.flatten_cons,
        ih ((a :: l).drop g) (by simp only [List.length_drop, List.length_cons] at hl ⊢; omega),
        List.take_append_drop]

theorem chunks_length_ceil (g : Nat) (hg : 1 ≤ g) (l : List α) :
    (chunks g l).length = (l.length + g - 1) / g := by
  suffices h : ∀ (n : Nat) (l : List α), l.length ≤ n →
      (chunks g l).length = (l.length + g - 1) / g from h l.length l le_rfl
  intro n
  induction n with
  | zero =>
    intro l hl
    have : l = [] := List.eq_nil_of_length_eq_zero (by omega)
    subst this
    simp [chunks, chunksAux, Nat.div_eq_of_lt (by omega : g - 1 < g)]
  | succ n ih =>
    intro l hl
    cases l with
    | nil => simp [chunks, chunksAux, Nat.div_eq_of_lt (by omega : g - 1 < g)]
    | cons a l =>
      rw [chunks_cons g hg, List.length_cons,
        ih ((a :: l).drop g) (by simp only [List.length_drop, List.length_cons] at hl ⊢; omega)]
      rw [List.length_drop]
      have h1 : (a :: l).length + g - 1 = ((a :: l).length - 1) + g := by
        simp only [List.length_cons]; omega
      rw [h1, Nat.add_div_right _ (by omega)]
      rcases le_or_lt (a :: l).length g with hle | hlt
      · have h2 : (a :: l).length - g = 0 := by omega
        rw [h2]
        have h3 : (0 + g - 1) / g = 0 := Nat.div_eq_of_lt (by omega)
        have h4 : ((a :: l).length - 1) / g = 0 :=
          Nat.div_eq_of_lt (by simp only [List.length_cons] at hle ⊢; omega)
        omega
      · have h2 : (a :: l).length - g + g - 1 = ((a :: l).length - 1 - g) + g := by
          omega
        rw [h2, Nat.add_div_right _ (by omega)]
        have h3 : (a :: l).length - 1 - g + g = (a :: l).length - 1 := by omega
        have h4 : ((a :: l).length - 1) / g = ((a :: l).length - 1 - g) / g + 1 := by
          rw [← Nat.add_div_right _ (by omega : 0 < g), h3]
        omega

theorem chunks_shape (g : Nat) (hg : 1 ≤ g) (l : List α) :
    ∀ c ∈ chunks g l, c ≠ [] ∧ c.length ≤ g := by
  suffices h : ∀ (n : Nat) (l : List α), l.length ≤ n →
      ∀ c ∈ chunks g l, c ≠ [] ∧ c.length ≤ g from h l.length l le_rfl
  intro n
  induction n with
  | zero =>
    intro l hl c hc
    have : l = [] := List.eq_nil_of_length_eq_zero (by omega)
    subst this; cases hc
  | succ n ih =>
    intro l hl c hc
    cases l with
    | nil => cases hc
    | cons a l =>
      rw [chunks_cons g hg] at hc
      rcases List.mem_cons.mp hc with h | h
      · subst h
        constructor
        · have : ((a :: l).take g).length = min g (a :: l).length := List.length_take g _
          intro hnil
          rw [hnil] at this
          simp only [List.length_nil, List.length_cons] at this
          omega
        · rw [List.length_take]; omega
      · exact ih ((a :: l).drop g)
          (by simp only [List.length_drop, List.length_cons] at hl ⊢; omega) c h

theorem chunks_nil_iff (g : Nat) (l : List α) :
    chunks g l = [] ↔ l = [] := by
  constructor
  · intro h
    cases l with
    | nil => rfl
    | cons a l =>
      have e1 : chunks g (a :: l) =
          ((a :: l).take g) :: chunksAux g l.length ((a :: l).drop g) := rfl
      rw [e1] at h
      cases h
  · intro h; subst h; rfl

theorem chunks_full_size (g : Nat) (hg : 1 ≤ g) (l : List α) :
    ∀ k, k + 1 < (chunks g l).length → ((chunks g l).getD k []).length = g := by
  suffices h : ∀ (n : Nat) (l : List α), l.length ≤ n →
      ∀ k, k + 1 < (chunks g l).length → ((chunks g l).getD k []).length = g from
    h l.length l le_rfl
  intro n
  induction n with
  | zero =>
    intro l hl k hk
    have : l = [] := List.eq_nil_of_length_eq_zero (by omega)
    subst this
    simp [chunks, chunksAux] at hk
  | succ n ih =>
    intro l hl k hk
    cases l with
    | nil => simp [chunks, chunksAux] at hk
    | cons a l =>
      rw [chunks_cons g hg] at hk ⊢
      cases k with
      | zero =>
        simp only [List.getD_cons_zero]
        simp only [List.length_cons] at hk
        have hne : chunks g ((a :: l).drop g) ≠ [] := by
          intro hnil
          rw [hnil] at hk
          simp at hk
        have hdrop : (a :: l).drop g ≠ [] := by
          intro hnil
          exact hne ((chunks_nil_iff g _).mpr hnil)
        have : (a :: l).length > g := by
          by_contra hle
          exact hdrop (List.drop_eq_nil_of_le (by omega))
        rw [List.length_take]
        omega
      | succ k =>
        simp only [List.getD_cons_succ]
        exact ih ((a :: l).drop g)
          (by simp only [List.length_drop, List.length_cons] at hl ⊢; omega) k
          (by simpa using hk)

theorem groupContent_congr (fs1 fs2 : Fs) (g : List String)
    (h : ∀ p ∈ g, fs1 p = fs2 p) : groupContent fs1 g = groupContent fs2 g := by
  suffices haux : ∀ acc,
      g.foldl (fun acc p => if isfile fs1 p then acc ++ readBytes fs1 p else acc) acc =
      g.foldl (fun acc p => if isfile fs2 p then acc ++ readBytes fs2 p else acc) acc from
    haux []
  induction g with
  | nil => intro acc; rfl
  | cons p g ih =>
    intro acc
    have hp := h p (List.mem_cons_self p g)
    have ih' := ih (fun q hq => h q (List.mem_cons_of_mem p hq))
    simp only [List.foldl_cons, isfile, readBytes, hp]
    exact ih' _

theorem groupContent_eq_flatten (fs : Fs) (g : List String) :
    groupContent fs g =
      ((g.filter (fun p => isfile fs p)).map (readBytes fs)).flatten := by
  suffices haux : ∀ acc,
      g.foldl (fun acc p => if isfile fs p then acc ++ readBytes fs p else acc) acc =
      acc ++ ((g.filter (fun p => isfile fs p)).map (readBytes fs)).flatten by
    simpa using haux []
  induction g with
  | nil => intro acc; simp
  | cons p g ih =>
    intro acc
    by_cases hp : isfile fs p
    · simp only [List.foldl_cons, hp, if_true, List.filter_cons_of_pos hp,
        List.map_cons, List.flatten_cons, ih, List.append_assoc]
    · simp only [List.foldl_cons, hp, if_false, List.filter_cons_of_neg hp, ih,
        Bool.false_eq_true]

theorem mergeGroupsFrom_spec (folder : String) :
    ∀ (gs : List (List String)) (fs : Fs) (idx : Nat),
      (∀ g ∈ gs, ∀ p ∈ g, ∀ i, i < idx + gs.length → p ≠ mergedName folder i) →
      ((mergeGroupsFrom fs idx folder gs).1 =
        (List.range gs.length).map (fun k => mergedName folder (idx + k))) ∧
      (∀ q, (∀ i, q ≠ mergedName folder i) →
        (mergeGroupsFrom fs idx folder gs).2 q = fs q) ∧
      (∀ j, j < idx →
        (mergeGroupsFrom fs idx folder gs).2 (mergedName folder j) =
          fs (mergedName folder j)) ∧
      (∀ k (hk : k < gs.length),
        (mergeGroupsFrom fs idx folder gs).2 (mergedName folder (idx + k)) =
          some (FileData.bytes (groupContent fs (gs.get ⟨k, hk⟩)))) := by
  intro gs
  induction gs with
  | nil =>
    intro fs idx hdisj
    exact ⟨rfl, fun q _ => rfl, fun j _ => rfl, fun k hk => absurd hk (by simp)⟩
  | cons g gs ih =>
    intro fs idx hdisj
    have hdg : ∀ p ∈ g, ∀ i, i < idx + (g :: gs).length → p ≠ mergedName folder i :=
      hdisj g (List.mem_cons_self g gs)
    have hdgs : ∀ g' ∈ gs, ∀ p ∈ g', ∀ i, i < (idx + 1) + gs.length →
        p ≠ mergedName folder i := by
      intro g' hg' p hp i hi
      exact hdisj g' (List.mem_cons_of_mem g hg') p hp i
        (by simp only [List.length_cons]; omega)
    set name := mergedName folder idx with hname
    set fsT : Fs := fsWrite fs name (FileData.bytes []) with hfsT
    set fs' : Fs := fsWrite fsT name (FileData.bytes (groupContent fsT g)) with hfs'
    have hT_agree : ∀ p, p ≠ name → fsT p = fs p := by
      intro p hp
      exact fsWrite_ne fs name p _ hp
    have h'_agree : ∀ p, p ≠ name → fs' p = fs p := by
      intro p hp
      rw [hfs', fsWrite_ne _ _ _ _ hp]
      exact hT_agree p hp
    have hidx_lt : idx < idx + (g :: gs).length := by
      simp only [List.length_cons]; omega
    have hcontent : groupContent fsT g = groupContent fs g :=
      groupContent_congr fsT fs g (fun p hp => hT_agree p (hdg p hp idx hidx_lt))
    have hrec := ih fs' (idx + 1) hdgs
    have hrun : mergeGroupsFrom fs idx folder (g :: gs) =
        (name :: (mergeGroupsFrom fs' (idx + 1) folder gs).1,
          (mergeGroupsFrom fs' (idx + 1) folder gs).2) := rfl
    refine ⟨?_, ?_, ?_, ?_⟩
    · rw [hrun]
      simp only [List.length_cons, List.range_succ_eq_map, List.map_cons,
        List.map_map]
      congr 1
      rw [hrec.1]
      apply List.map_congr_left
      intro k hk
      simp only [Function.comp_apply]
      congr 1
      omega
    · intro q hq
      rw [hrun]
      simp only
      rw [hrec.2.1 q hq]
      exact h'_agree q (hq idx)
    · intro j hj
      rw [hrun]
      simp only
      rw [hrec.2.2.1 j (by omega)]
      apply h'_agree
      intro he
      have := mergedName_inj folder j idx he
      omega
    · intro k hk
      rw [hrun]
      cases k with
      | zero =>
        simp only
        have h0 : idx + 0 = idx := rfl
        rw [h0, hrec.2.2.1 idx (by omega), hfs', fsWrite_self]
        rw [hcontent]
        rfl
      | succ k =>
        simp only
        have hs : idx + (k + 1) = (idx + 1) + k := by omega
        rw [hs, hrec.2.2.2 k (by simpa using hk)]
        congr 2
        apply groupContent_congr
        intro p hp
        apply h'_agree
        exact hdgs _ (List.get_mem gs k _) p hp idx
          (by omega)

theorem mem_of_mem_chunks (g : Nat) (hg : 1 ≤ g) (l : List α) (c : List α)
    (hc : c ∈ chunks g l) (p : α) (hp : p ∈ c) : p ∈ l := by
  rw [← chunks_join g hg l]
  exact List.mem_flatten.mpr ⟨c, hc, hp⟩

theorem merge_files_in_groups_spec (fs : Fs) (fileList : List String)
    (groupSize : Nat) (folder : String)
    (hg : 1 ≤ groupSize)
    (hdisj : ∀ p ∈ fileList, ∀ i, i ≤ (chunks groupSize fileList).length →
      p ≠ mergedName folder i) :
    (merge_files_in_groups fs fileList groupSize folder).1 =
      (List.range (chunks groupSize fileList).length).map
        (fun k => mergedName folder (1 + k)) ∧
    ∀ k (hk : k < (chunks groupSize fileList).length),
      (merge_files_in_groups fs fileList groupSize folder).2
          (mergedName folder (1 + k)) =
        some (FileData.bytes
          (groupContent fs ((chunks groupSize fileList).get ⟨k, hk⟩))) := by
  have hd : ∀ c ∈ chunks groupSize fileList, ∀ p ∈ c, ∀ i,
      i < 1 + (chunks groupSize fileList).length → p ≠ mergedName folder i := by
    intro c hc p hp i hi
    exact hdisj p (mem_of_mem_chunks groupSize hg fileList c hc p hp) i (by omega)
  have hm := mergeGroupsFrom_spec folder (chunks groupSize fileList) fs 1 hd
  exact ⟨hm.1, hm.2.2.2⟩

/-- C4: the fast-path byte concatenation partitions the input into
contiguous groups of `group_size` (non-empty, the last possibly shorter,
all non-last groups exactly `group_size`), and when every member exists
on disk — with the inputs distinct from the output names — each group's
output file holds exactly the concatenation of its members' bytes in
input order. -/
theorem merge_files_in_groups_exact_concat (fs : Fs) (fileList : List String)
    (groupSize : Nat) (folder : String)
    (hg : 1 ≤ groupSize)
    (hdisj : ∀ p ∈ fileList, ∀ i, i ≤ (chunks groupSize fileList).length →
      p ≠ mergedName folder i)
    (hex : ∀ p ∈ fileList, isfile fs p = true) :
    (chunks groupSize fileList).flatten = fileList ∧
    (∀ c ∈ chunks groupSize fileList, c ≠ [] ∧ c.length ≤ groupSize) ∧
    (∀ k, k + 1 < (chunks groupSize fileList).length →
      ((chunks groupSize fileList).getD k []).length = groupSize) ∧
    (merge_files_in_groups fs fileList groupSize folder).1 =
      (List.range (chunks groupSize fileList).length).map
        (fun k => mergedName folder (1 + k)) ∧
    ∀ k (hk : k < (chunks groupSize fileList).length),
      readBytes (merge_files_in_groups fs fileList groupSize folder).2
          (mergedName folder (1 + k)) =
        (((chunks groupSize fileList).get ⟨k, hk⟩).map (readBytes fs)).flatten := by
  have hspec := merge_files_in_groups_spec fs fileList groupSize folder hg hdisj
  refine ⟨chunks_join groupSize hg fileList, chunks_shape groupSize hg fileList,
    chunks_full_size groupSize hg fileList, hspec.1, ?_⟩
  intro k hk
  rw [readBytes, hspec.2 k hk, groupContent_eq_flatten]
  have hfil : ((chunks groupSize fileList).get ⟨k, hk⟩).filter
      (fun p => isfile fs p) = (chunks groupSize fileList).get ⟨k, hk⟩ := by
    apply List.filter_eq_self.mpr
    intro p hp
    exact hex p (mem_of_mem_chunks groupSize hg fileList _
      (List.get_mem _ _ _) p hp)
  rw [hfil]

/-- C9: a group member absent from the disk at merge time is skipped;
the group still produces its output file, whose contents are the
concatenation of the present members' bytes only. -/
theorem merge_files_in_groups_missing_skipped (fs : Fs) (fileList : List String)
    (groupSize : Nat) (folder : String)
    (hg : 1 ≤ groupSize)
    (hdisj : ∀ p ∈ fileList, ∀ i, i ≤ (chunks groupSize fileList).length →
      p ≠ mergedName folder i) :
    (merge_files_in_groups fs fileList groupSize folder).1 =
      (List.range (chunks groupSize fileList).length).map
        (fun k => mergedName folder (1 + k)) ∧
    ∀ k (hk : k < (chunks groupSize fileList).length),
      readBytes (merge_files_in_groups fs fileList groupSize folder).2
          (mergedName folder (1 + k)) =
        ((((chunks groupSize fileList).get ⟨k, hk⟩).filter
            (fun p => isfile fs p)).map (readBytes fs)).flatten := by
  have hspec := merge_files_in_groups_spec fs fileList groupSize folder hg hdisj
  refine ⟨hspec.1, ?_⟩
  intro k hk
  rw [readBytes, hspec.2 k hk, groupContent_eq_flatten]

/-- C10: `merge_files_in_groups` returns exactly `⌈n / group_size⌉`
paths, one per group, and creates every group's output file — a group
whose members are all missing still yields an (empty) output file that is
included in the result. -/
theorem merge_files_in_groups_all_groups (fs : Fs) (fileList : List String)
    (groupSize : Nat) (folder : String)
    (hg : 1 ≤ groupSize)
    (hdisj : ∀ p ∈ fileList, ∀ i, i ≤ (chunks groupSize fileList).length →
      p ≠ mergedName folder i) :
    (merge_files_in_groups fs fileList groupSize folder).1.length =
      (fileList.length + groupSize - 1) / groupSize ∧
    (∀ k, k < (chunks groupSize fileList).length →
      mergedName folder (1 + k) ∈
        (merge_files_in_groups fs fileList groupSize folder).1) ∧
    (∀ k, k < (chunks groupSize fileList).length →
      isfile (merge_files_in_groups fs fileList groupSize folder).2
        (mergedName folder (1 + k)) = true) ∧
    ∀ k (hk : k < (chunks groupSize fileList).length),
      (∀ p ∈ (chunks groupSize fileList).get ⟨k, hk⟩, isfile fs p = false) →
      (merge_files_in_groups fs fileList groupSize folder).2
          (mergedName folder (1 + k)) = some (FileData.bytes []) := by
  have hspec := merge_files_in_groups_spec fs fileList groupSize folder hg hdisj
  refine ⟨?_, ?_, ?_, ?_⟩
  · rw [hspec.1]
    simp [chunks_length_ceil groupSize hg fileList]
  · intro k hk
    rw [hspec.1]
    exact List.mem_map.mpr ⟨k, List.mem_range.mpr hk, rfl⟩
  · intro k hk
    rw [isfile, hspec.2 k hk]
    rfl
  · intro k hk habs
    rw [hspec.2 k hk, groupContent_eq_flatten]
    have hnil : ((chunks groupSize fileList).get ⟨k, hk⟩).filter
        (fun p => isfile fs p) = [] := by
      apply List.filter_eq_nil_iff.mpr
      intro p hp
      simp [habs p hp]
    rw [hnil]
    rfl



/-- C4 witness: the five-file example with group size 2. -/
theorem merge_files_in_groups_exact_concat_witness :
    (merge_files_in_groups fsFive
        ["u/f0.mp3", "u/f1.mp3", "u/f2.mp3", "u/f3.mp3", "u/f4.mp3"]
        2 "out").1 =
      ["out/merged_1.mp3", "out/merged_2.mp3", "out/merged_3.mp3"] ∧
    readBytes (merge_files_in_groups fsFive
        ["u/f0.mp3", "u/f1.mp3", "u/f2.mp3", "u/f3.mp3", "u/f4.mp3"]
        2 "out").2 "out/merged_1.mp3" = strBytes "FILE0-FILE1-" ∧
    readBytes (merge_files_in_groups fsFive
        ["u/f0.mp3", "u/f1.mp3", "u/f2.mp3", "u/f3.mp3", "u/f4.mp3"]
        2 "out").2 "out/merged_2.mp3" = strBytes "FILE2-FILE3-" ∧
    readBytes (merge_files_in_groups fsFive
        ["u/f0.mp3", "u/f1.mp3", "u/f2.mp3", "u/f3.mp3", "u/f4.mp3"]
        2 "out").2 "out/merged_3.mp3" = strBytes "FILE4-" := by
  have h := merge_files_in_groups_exact_concat fsFive
    ["u/f0.mp3", "u/f1.mp3", "u/f2.mp3", "u/f3.mp3", "u/f4.mp3"] 2 "out"
    (by decide) (by decide) (by decide)
  refine ⟨?_, ?_, ?_, ?_⟩
  · rw [h.2.2.2.1]; decide
  · have h5 := h.2.2.2.2 0 (by decide)
    have hn : ("out/merged_1.mp3" : String) = mergedName "out" (1 + 0) := by decide
    rw [hn, h5]; decide
  · have h5 := h.2.2.2.2 1 (by decide)
    have hn : ("out/merged_2.mp3" : String) = mergedName "out" (1 + 1) := by decide
    rw [hn, h5]; decide
  · have h5 := h.2.2.2.2 2 (by decide)
    have hn : ("out/merged_3.mp3" : String) = mergedName "out" (1 + 2) := by decide
    rw [hn, h5]; decide

/-- C9 witness: one existing file and one missing path, group size 2. -/
theorem merge_files_in_groups_missing_skipped_witness :
    (merge_files_in_groups fsA ["t/a.mp3", "t/missing.mp3"] 2 "out").1 =
      ["out/merged_1.mp3"] ∧
    readBytes (merge_files_in_groups fsA
        ["t/a.mp3", "t/missing.mp3"] 2 "out").2 "out/merged_1.mp3" =
      strBytes "A-" := by
  have h := merge_files_in_groups_missing_skipped fsA
    ["t/a.mp3", "t/missing.mp3"] 2 "out" (by decide) (by decide)
  refine ⟨?_, ?_⟩
  · rw [h.1]; decide
  · have h2 := h.2 0 (by decide)
    have hn : ("out/merged_1.mp3" : String) = mergedName "out" (1 + 0) := by decide
    rw [hn, h2]; decide

/-- C10 witness: three all-missing files, group size 2 — two outputs,
the second one empty. -/
theorem merge_files_in_groups_all_groups_witness :
    (merge_files_in_groups fsA ["t/x.mp3", "t/y.mp3", "t/z.mp3"] 2 "out").1.length = 2 ∧
    (merge_files_in_groups fsA ["t/x.mp3", "t/y.mp3", "t/z.mp3"] 2 "out").2
      "out/merged_2.mp3" = some (FileData.bytes []) := by
  have h := merge_files_in_groups_all_groups fsA
    ["t/x.mp3", "t/y.mp3", "t/z.mp3"] 2 "out" (by decide) (by decide)
  refine ⟨by rw [h.1]; decide, ?_⟩
  have h4 := h.2.2.2 1 (by decide) (by decide)
  have hn : ("out/merged_2.mp3" : String) = mergedName "out" (1 + 1) := by decide
  rw [hn, h4]

theorem dropWhile_eq_self_of (p : Char → Bool) (l : List Char)
    (h : ∀ c, l.head? = some c → p c = false) : l.dropWhile p = l := by
  cases l with
  | nil => rfl
  | cons a t => rw [List.dropWhile_cons, h a rfl]; simp

theorem dropTrailing_eq_self (p : Char → Bool) (l : List Char)
    (h : ∀ c, l.getLast? = some c → p c = false) : dropTrailing p l = l := by
  unfold dropTrailing
  rw [dropWhile_eq_self_of p l.reverse
    (fun c hc => h c (by rwa [List.head?_reverse] at hc)), List.reverse_reverse]

theorem mem_dropTrailing (p : Char → Bool) (l : List Char) (c : Char)
    (h : c ∈ dropTrailing p l) : c ∈ l := by
  unfold dropTrailing at h
  rw [List.mem_reverse] at h
  exact List.mem_reverse.mp ((List.dropWhile_sublist p).mem h)

theorem takeWhile_append_all (p : Char → Bool) (l1 l2 : List Char)
    (h : ∀ c ∈ l1, p c = true) :
    (l1 ++ l2).takeWhile p = l1 ++ l2.takeWhile p := by
  induction l1 with
  | nil => rfl
  | cons a t ih =>
    rw [List.cons_append, List.takeWhile_cons, h a (List.mem_cons_self a t),
      ih (fun c hc => h c (List.mem_cons_of_mem a hc))]
    rfl

theorem dropWhile_append_all (p : Char → Bool) (l1 l2 : List Char)
    (h : ∀ c ∈ l1, p c = true) :
    (l1 ++ l2).dropWhile p = l2.dropWhile p := by
  induction l1 with
  | nil => rfl
  | cons a t ih =>
    rw [List.cons_append, List.dropWhile_cons, h a (List.mem_cons_self a t)]
    exact ih (fun c hc => h c (List.mem_cons_of_mem a hc))

theorem head?_dropWhile_false (p : Char → Bool) (l : List Char) (a : Char)
    (h : (l.dropWhile p).head? = some a) : p a = false := by
  induction l with
  | nil => cases h
  | cons b t ih =>
    rw [List.dropWhile_cons] at h
    by_cases hb : p b
    · rw [if_pos hb] at h; exact ih h
    · rw [if_neg hb] at h
      cases h
      exact Bool.eq_false_iff.mpr hb

theorem mem_of_head?_eq (l : List Char) (c : Char) (h : l.head? = some c) :
    c ∈ l := by
  cases l with
  | nil => cases h
  | cons a t => cases h; exact List.mem_cons_self _ _

theorem hangulCompose_eq_self (l : List Char)
    (h : ∀ c ∈ l, c.toNat < 128) : hangulCompose l = l := by
  induction l with
  | nil => rfl
  | cons a t ih =>
    cases t with
    | nil => rfl
    | cons b rest =>
      have ha : isJamoL a = false := by
        have := h a (List.mem_cons_self _ _)
        simp only [isJamoL, Bool.and_eq_false_iff]
        left
        simp only [decide_eq_false_iff_not]
        omega
      show (if isJamoL a && isJamoV b then
          composeLV a b :: hangulCompose rest
        else a :: hangulCompose (b :: rest)) = a :: b :: rest
      rw [ha]
      simp only [Bool.false_and, if_neg (by decide : ¬(false = true))]
      rw [ih (fun c hc => h c (List.mem_cons_of_mem a hc))]

theorem stripChars_eq_self (l : List Char)
    (h : ∀ c ∈ l, isSpaceChar c = false) : stripChars l = l := by
  unfold stripChars
  rw [dropWhile_eq_self_of _ _ (fun c hc => h c (mem_of_head?_eq l c hc))]
  exact dropTrailing_eq_self _ _ (fun c hc => h c (List.mem_of_mem_getLast? hc))

theorem squashSpacesGo_eq_self (b : Bool) (l : List Char)
    (h : ∀ c ∈ l, isSpaceChar c = false) : squashSpacesGo b l = l := by
  induction l generalizing b with
  | nil => rfl
  | cons a t ih =>
    show (if isSpaceChar a then _ else a :: squashSpacesGo false t) = a :: t
    rw [h a (List.mem_cons_self a t)]
    simp only [if_neg (by decide : ¬(false = true))]
    rw [ih false (fun c hc => h c (List.mem_cons_of_mem a hc))]

theorem dropUscoreDotGo_cons (pending : Nat) (c : Char) (cs : List Char) :
    dropUscoreDotGo pending (c :: cs) =
      if c = '_' then dropUscoreDotGo (pending + 1) cs
      else if c = '.' then '.' :: dropUscoreDotGo 0 cs
      else List.replicate pending '_' ++ (c :: dropUscoreDotGo 0 cs) := rfl

theorem dropUscoreDotGo_eq (l : List Char) : ∀ pending : Nat,
    noUscoreDot l → (0 < pending → l.head? ≠ some '.') →
    dropUscoreDotGo pending l = List.replicate pending '_' ++ l := by
  induction l with
  | nil => intro pending _ _; simp [dropUscoreDotGo]
  | cons c cs ih =>
    intro pending hchain hhead
    rcases List.chain'_cons'.mp hchain with ⟨hrel, htail⟩
    by_cases hc : c = '_'
    · subst hc
      rw [dropUscoreDotGo_cons, if_pos rfl]
      rw [ih (pending + 1) htail
        (fun _ hcs => hrel '.' (by rw [hcs]; rfl) ⟨rfl, rfl⟩)]
      rw [List.replicate_succ', List.append_assoc]
      rfl
    · by_cases hdot : c = '.'
      · subst hdot
        cases pending with
        | zero =>
          rw [dropUscoreDotGo_cons, if_neg (by decide), if_pos rfl,
            ih 0 htail (by omega)]
          simp
        | succ p => exact absurd rfl (hhead (by omega))
      · rw [dropUscoreDotGo_cons, if_neg hc, if_neg hdot,
          ih 0 htail (by omega)]
        simp

theorem dropUscoreDot_eq_self (l : List Char) (h : noUscoreDot l) :
    dropUscoreDot l = l := by
  unfold dropUscoreDot
  rw [dropUscoreDotGo_eq l 0 h (by omega)]
  rfl

theorem squashUscoresGo_cons (b : Bool) (c : Char) (cs : List Char) :
    squashUscoresGo b (c :: cs) =
      if c = '_' then
        (if b then squashUscoresGo true cs else '_' :: squashUscoresGo true cs)
      else c :: squashUscoresGo false cs := rfl

theorem squashUscoresGo_true_eq (l : List Char) (h : l.head? ≠ some '_') :
    squashUscoresGo true l = squashUscoresGo false l := by
  cases l with
  | nil => rfl
  | cons a t =>
    have ha : ¬(a = '_') := fun hcontra => h (by subst hcontra; rfl)
    rw [squashUscoresGo_cons, squashUscoresGo_cons, if_neg ha, if_neg ha]

theorem squashUscoresGo_eq_self (l : List Char) (h : noDoubleUscore l) :
    squashUscoresGo false l = l := by
  induction l with
  | nil => rfl
  | cons a t ih =>
    rcases List.chain'_cons'.mp h with ⟨hrel, htail⟩
    by_cases ha : a = '_'
    · subst ha
      rw [squashUscoresGo_cons, if_pos rfl, if_neg (by decide)]
      rw [squashUscoresGo_true_eq t
        (fun hcontra => hrel '_' (by rw [hcontra]; rfl) ⟨rfl, rfl⟩)]
      rw [ih htail]
    · rw [squashUscoresGo_cons, if_neg ha, ih htail]

theorem reverse_ext_decomp (l : List Char) :
    l.reverse = extOf l ++ (dotsOf l ++ preOf l) := by
  unfold dotsOf preOf
  rw [List.takeWhile_append_dropWhile]
  unfold extOf restOf
  rw [List.takeWhile_append_dropWhile]

theorem extOf_all (l : List Char) : ∀ c ∈ extOf l, isExtChar c = true :=
  fun _ hc => List.mem_takeWhile_imp hc

theorem dotsOf_all (l : List Char) : ∀ c ∈ dotsOf l, c = '.' := by
  intro c hc
  have := List.mem_takeWhile_imp hc
  exact of_decide_eq_true this

theorem preOf_head (l : List Char) (a : Char) (h : (preOf l).head? = some a) :
    ¬(a = '.') := by
  have := head?_dropWhile_false _ _ _ h
  exact of_decide_eq_false this

theorem fixMultiDotExt_fired (l : List Char) (h : multiDotCond l = true) :
    fixMultiDotExt l = (preOf l).reverse ++ ('.' :: (extOf l).reverse) := by
  rw [fixMultiDotExt, if_pos h]

theorem fixMultiDotExt_not_fired (l : List Char) (h : multiDotCond l = false) :
    fixMultiDotExt l = l := by
  rw [fixMultiDotExt, h]
  rfl

theorem fixMultiDotExt_reverse_fired (l : List Char) (h : multiDotCond l = true) :
    (fixMultiDotExt l).reverse = extOf l ++ ('.' :: preOf l) := by
  rw [fixMultiDotExt_fired l h, List.reverse_append, List.reverse_cons,
    List.reverse_reverse, List.reverse_reverse, List.append_assoc]
  rfl

theorem takeWhile_dot_preOf (l : List Char) :
    (preOf l).takeWhile (fun c => c = '.') = [] := by
  cases hp : preOf l with
  | nil => rfl
  | cons a t =>
    have ha : ¬(a = '.') := preOf_head l a (by rw [hp]; rfl)
    rw [List.takeWhile_cons, decide_eq_false ha]
    rfl

theorem multiDotCond_fix (l : List Char) :
    multiDotCond (fixMultiDotExt l) = false := by
  by_cases h : multiDotCond l
  · have hrev := fixMultiDotExt_reverse_fired l h
    have hext : extOf (fixMultiDotExt l) = extOf l := by
      rw [extOf, hrev, takeWhile_append_all _ _ _ (extOf_all l),
        List.takeWhile_cons, show isExtChar '.' = false from by decide]
      simp
    have hrest : restOf (fixMultiDotExt l) = '.' :: preOf l := by
      rw [restOf, hrev, dropWhile_append_all _ _ _ (extOf_all l),
        List.dropWhile_cons, show isExtChar '.' = false from by decide]
      simp
    have hdots : dotsOf (fixMultiDotExt l) = ['.'] := by
      rw [dotsOf, hrest, List.takeWhile_cons]
      simp [takeWhile_dot_preOf l]
    rw [multiDotCond, hdots]
    simp
  · rw [fixMultiDotExt_not_fired l (Bool.eq_false_iff.mpr h)]
    exact Bool.eq_false_iff.mpr h

theorem fixMultiDotExt_idem (l : List Char) :
    fixMultiDotExt (fixMultiDotExt l) = fixMultiDotExt l :=
  fixMultiDotExt_not_fired _ (multiDotCond_fix l)

theorem mem_stripChars (l : List Char) (c : Char) (h : c ∈ stripChars l) :
    c ∈ l := by
  unfold stripChars at h
  exact (List.dropWhile_sublist _).mem (mem_dropTrailing _ _ _ h)

theorem mem_squashSpacesGo (b : Bool) (l : List Char) (c : Char)
    (h : c ∈ squashSpacesGo b l) : c = '_' ∨ c ∈ l := by
  induction l generalizing b with
  | nil => cases h
  | cons a t ih =>
    by_cases ha : isSpaceChar a
    · rw [show squashSpacesGo b (a :: t) = if isSpaceChar a then
          (if b then squashSpacesGo true t else '_' :: squashSpacesGo true t)
          else a :: squashSpacesGo false t from rfl, if_pos ha] at h
      cases b with
      | true =>
        rcases ih true (by rwa [if_pos rfl] at h) with h1 | h1
        · exact Or.inl h1
        · exact Or.inr (List.mem_cons_of_mem a h1)
      | false =>
        rw [if_neg (by decide : ¬(false = true))] at h
        rcases List.mem_cons.mp h with h1 | h1
        · exact Or.inl h1
        · rcases ih true h1 with h2 | h2
          · exact Or.inl h2
          · exact Or.inr (List.mem_cons_of_mem a h2)
    · rw [show squashSpacesGo b (a :: t) = if isSpaceChar a then
          (if b then squashSpacesGo true t else '_' :: squashSpacesGo true t)
          else a :: squashSpacesGo false t from rfl, if_neg ha] at h
      rcases List.mem_cons.mp h with h1 | h1
      · exact Or.inr (h1 ▸ List.mem_cons_self a t)
      · rcases ih false h1 with h2 | h2
        · exact Or.inl h2
        · exact Or.inr (List.mem_cons_of_mem a h2)

theorem squashSpaces_no_space (b : Bool) (l : List Char) (c : Char)
    (h : c ∈ squashSpacesGo b l) : isSpaceChar c = false := by
  induction l generalizing b with
  | nil => cases h
  | cons a t ih =>
    by_cases ha : isSpaceChar a
    · rw [show squashSpacesGo b (a :: t) = if isSpaceChar a then
          (if b then squashSpacesGo true t else '_' :: squashSpacesGo true t)
          else a :: squashSpacesGo false t from rfl, if_pos ha] at h
      cases b with
      | true => exact ih true (by rwa [if_pos rfl] at h)
      | false =>
        rw [if_neg (by decide : ¬(false = true))] at h
        rcases List.mem_cons.mp h with h1 | h1
        · subst h1; decide
        · exact ih true h1
    · rw [show squashSpacesGo b (a :: t) = if isSpaceChar a then
          (if b then squashSpacesGo true t else '_' :: squashSpacesGo true t)
          else a :: squashSpacesGo false t from rfl, if_neg ha] at h
      rcases List.mem_cons.mp h with h1 | h1
      · subst h1; exact Bool.eq_false_iff.mpr ha
      · exact ih false h1

theorem mem_dropUscoreDotGo (pending : Nat) (l : List Char) (c : Char)
    (h : c ∈ dropUscoreDotGo pending l) : c = '_' ∨ c ∈ l := by
  induction l generalizing pending with
  | nil =>
    simp only [dropUscoreDotGo] at h
    exact Or.inl (List.eq_of_mem_replicate h)
  | cons a t ih =>
    rw [dropUscoreDotGo_cons] at h
    by_cases ha : a = '_'
    · rw [if_pos ha] at h
      rcases ih (pending + 1) h with h1 | h1
      · exact Or.inl h1
      · exact Or.inr (List.mem_cons_of_mem a h1)
    · rw [if_neg ha] at h
      by_cases hd : a = '.'
      · rw [if_pos hd] at h
        rcases List.mem_cons.mp h with h1 | h1
        · exact Or.inr (by rw [h1, hd]; exact List.mem_cons_self _ _)
        · rcases ih 0 h1 with h2 | h2
          · exact Or.inl h2
          · exact Or.inr (List.mem_cons_of_mem a h2)
      · rw [if_neg hd] at h
        rcases List.mem_append.mp h with h1 | h1
        · exact Or.inl (List.eq_of_mem_replicate h1)
        · rcases List.mem_cons.mp h1 with h2 | h2
          · exact Or.inr (h2 ▸ List.mem_cons_self a t)
          · rcases ih 0 h2 with h3 | h3
            · exact Or.inl h3
            · exact Or.inr (List.mem_cons_of_mem a h3)

theorem mem_squashUscoresGo (b : Bool) (l : List Char) (c : Char)
    (h : c ∈ squashUscoresGo b l) : c = '_' ∨ c ∈ l := by
  induction l generalizing b with
  | nil => cases h
  | cons a t ih =>
    rw [squashUscoresGo_cons] at h
    by_cases ha : a = '_'
    · rw [if_pos ha] at h
      cases b with
      | true =>
        rcases ih true (by rwa [if_pos rfl] at h) with h1 | h1
        · exact Or.inl h1
        · exact Or.inr (List.mem_cons_of_mem a h1)
      | false =>
        rw [if_neg (by decide : ¬(false = true))] at h
        rcases List.mem_cons.mp h with h1 | h1
        · exact Or.inl h1
        · rcases ih true h1 with h2 | h2
          · exact Or.inl h2
          · exact Or.inr (List.mem_cons_of_mem a h2)
    · rw [if_neg ha] at h
      rcases List.mem_cons.mp h with h1 | h1
      · exact Or.inr (h1 ▸ List.mem_cons_self a t)
      · rcases ih false h1 with h2 | h2
        · exact Or.inl h2
        · exact Or.inr (List.mem_cons_of_mem a h2)

theorem preOf_sublist (l : List Char) : (preOf l).Sublist (restOf l) := by
  unfold preOf
  exact List.dropWhile_sublist _

theorem restOf_sublist (l : List Char) : (restOf l).Sublist l.reverse := by
  unfold restOf
  exact List.dropWhile_sublist _

theorem extOf_sublist (l : List Char) : (extOf l).Sublist l.reverse := by
  unfold extOf
  exact List.takeWhile_sublist _

theorem mem_fixMultiDotExt (l : List Char) (c : Char)
    (h : c ∈ fixMultiDotExt l) : c = '.' ∨ c ∈ l := by
  by_cases hc : multiDotCond l
  · rw [fixMultiDotExt_fired l hc] at h
    rcases List.mem_append.mp h with h1 | h1
    · have hp : c ∈ preOf l := List.mem_reverse.mp h1
      exact Or.inr (List.mem_reverse.mp
        ((restOf_sublist l).mem ((preOf_sublist l).mem hp)))
    · rcases List.mem_cons.mp h1 with h2 | h2
      · exact Or.inl h2
      · have he : c ∈ extOf l := List.mem_reverse.mp h2
        exact Or.inr (List.mem_reverse.mp ((extOf_sublist l).mem he))
  · rw [fixMultiDotExt_not_fired l (Bool.eq_false_iff.mpr hc)] at h
    exact Or.inr h

theorem noUscoreDot_replicate (n : Nat) :
    noUscoreDot (List.replicate n '_') :=
  List.chain'_replicate_of_rel n (by simp)

theorem noUscoreDot_dropUscoreDotGo (l : List Char) :
    ∀ pending, noUscoreDot (dropUscoreDotGo pending l) := by
  induction l with
  | nil =>
    intro pending
    simp only [dropUscoreDotGo]
    exact noUscoreDot_replicate pending
  | cons a t ih =>
    intro pending
    rw [dropUscoreDotGo_cons]
    by_cases ha : a = '_'
    · rw [if_pos ha]; exact ih (pending + 1)
    · rw [if_neg ha]
      by_cases hd : a = '.'
      · rw [if_pos hd]
        exact List.chain'_cons'.mpr ⟨fun y _ => by simp, ih 0⟩
      · rw [if_neg hd]
        apply List.chain'_append.mpr
        refine ⟨noUscoreDot_replicate pending, ?_, ?_⟩
        · exact List.chain'_cons'.mpr ⟨fun y _ => by simp [ha], ih 0⟩
        · intro x hx y hy
          have hx' : x = '_' :=
            List.eq_of_mem_replicate (List.mem_of_mem_getLast? hx)
          have hy' : y = a := by
            cases hy; rfl
          subst hx'; subst hy'
          exact fun hcontra => hd hcontra.2

theorem head?_squashUscoresGo_false (l : List Char) :
    (squashUscoresGo false l).head? = l.head? := by
  cases l with
  | nil => rfl
  | cons a t =>
    rw [squashUscoresGo_cons]
    by_cases ha : a = '_'
    · rw [if_pos ha, if_neg (by decide : ¬(false = true))]
      rw [ha]
      rfl
    · rw [if_neg ha]
      rfl

theorem squashUscoresGo_true_eq_dropWhile (l : List Char) :
    squashUscoresGo true l =
      squashUscoresGo false (l.dropWhile (fun c => c = '_')) := by
  induction l with
  | nil => rfl
  | cons a t ih =>
    by_cases ha : a = '_'
    · rw [squashUscoresGo_cons, if_pos ha, if_pos rfl, ih,
        List.dropWhile_cons, decide_eq_true ha, if_pos rfl]
    · rw [squashUscoresGo_cons, if_neg ha, List.dropWhile_cons,
        decide_eq_false ha, if_neg (by decide : ¬(false = true))]
      exact (by rw [squashUscoresGo_cons, if_neg ha] :
        squashUscoresGo false (a :: t) = a :: squashUscoresGo false t).symm

theorem squashUscoresGo_false_ne_nil (l : List Char) (h : l ≠ []) :
    squashUscoresGo false l ≠ [] := by
  cases l with
  | nil => exact absurd rfl h
  | cons a t =>
    rw [squashUscoresGo_cons]
    by_cases ha : a = '_'
    · rw [if_pos ha, if_neg (by decide : ¬(false = true))]
      exact List.cons_ne_nil _ _
    · rw [if_neg ha]
      exact List.cons_ne_nil _ _

theorem bdot_run (cs : List Char) (h : noUscoreDot ('_' :: cs)) :
    (cs.dropWhile (fun c => c = '_')).head? ≠ some '.' := by
  induction cs with
  | nil => intro hcontra; cases hcontra
  | cons d ds ih =>
    rcases List.chain'_cons'.mp h with ⟨hrel, htail⟩
    by_cases hd : d = '_'
    · rw [List.dropWhile_cons, decide_eq_true hd]
      subst hd
      exact ih htail
    · rw [List.dropWhile_cons, decide_eq_false hd,
        if_neg (by decide : ¬(false = true))]
      intro hcontra
      have hd' : d = '.' := by cases hcontra; rfl
      exact hrel d rfl ⟨rfl, hd'⟩

theorem go_true_head (l : List Char) :
    (squashUscoresGo true l).head? ≠ some '_' := by
  induction l with
  | nil => intro hcontra; cases hcontra
  | cons a t ih =>
    rw [squashUscoresGo_cons]
    by_cases ha : a = '_'
    · rw [if_pos ha, if_pos rfl]; exact ih
    · rw [if_neg ha]
      intro hcontra
      have : a = '_' := by cases hcontra; rfl
      exact ha this

theorem bdot_squashUscoresGo (n : Nat) : ∀ l : List Char, l.length ≤ n →
    noUscoreDot l → noUscoreDot (squashUscoresGo false l) := by
  induction n with
  | zero =>
    intro l hl _
    have : l = [] := List.eq_nil_of_length_eq_zero (by omega)
    subst this
    exact List.chain'_nil
  | succ n ih =>
    intro l hl hb
    cases l with
    | nil => exact List.chain'_nil
    | cons a t =>
      rcases List.chain'_cons'.mp hb with ⟨hrel, htail⟩
      rw [squashUscoresGo_cons]
      by_cases ha : a = '_'
      · rw [if_pos ha, if_neg (by decide : ¬(false = true)),
          squashUscoresGo_true_eq_dropWhile]
        subst ha
        apply List.chain'_cons'.mpr
        constructor
        · intro y hy
          rw [head?_squashUscoresGo_false] at hy
          intro hcontra
          exact bdot_run t hb (by rw [hy, hcontra.2])
        · apply ih
          · have : (List.dropWhile (fun c => decide (c = '_')) t).length ≤
                t.length := (List.dropWhile_sublist _).length_le
            simp only [List.length_cons] at hl
            omega
          · exact htail.suffix (List.dropWhile_suffix _)
      · rw [if_neg ha]
        apply List.chain'_cons'.mpr
        constructor
        · intro y _
          exact fun hcontra => ha hcontra.1
        · apply ih
          · simp only [List.length_cons] at hl; omega
          · exact htail

theorem buu_squashUscoresGo (n : Nat) : ∀ l : List Char, l.length ≤ n →
    noDoubleUscore (squashUscoresGo false l) := by
  induction n with
  | zero =>
    intro l hl
    have : l = [] := List.eq_nil_of_length_eq_zero (by omega)
    subst this
    exact List.chain'_nil
  | succ n ih =>
    intro l hl
    cases l with
    | nil => exact List.chain'_nil
    | cons a t =>
      rw [squashUscoresGo_cons]
      by_cases ha : a = '_'
      · rw [if_pos ha, if_neg (by decide : ¬(false = true)),
          squashUscoresGo_true_eq_dropWhile]
        apply List.chain'_cons'.mpr
        constructor
        · intro y hy
          rw [head?_squashUscoresGo_false] at hy
          intro hcontra
          have : (List.dropWhile (fun c => decide (c = '_')) t).head? =
              some '_' := by rw [hy, hcontra.2]
          rcases hd : (List.dropWhile (fun c => decide (c = '_')) t) with _ | ⟨b, bs⟩
          · rw [hd] at this; cases this
          · rw [hd] at this
            have hb : b = '_' := by cases this; rfl
            have := head?_dropWhile_false _ t b (by rw [hd]; rfl)
            rw [hb] at this
            simp at this
        · apply ih
          have : (List.dropWhile (fun c => decide (c = '_')) t).length ≤
              t.length :=
            (List.dropWhile_sublist _).length_le
          simp only [List.length_cons] at hl
          omega
      · rw [if_neg ha]
        apply List.chain'_cons'.mpr
        refine ⟨fun y _ hcontra => ha hcontra.1, ?_⟩
        apply ih
        simp only [List.length_cons] at hl
        omega

theorem getLast?_suffix_of_ne_nil (l' l : List Char) (h : l' <:+ l)
    (hne : l' ≠ []) : l'.getLast? = l.getLast? := by
  obtain ⟨t, rfl⟩ := h
  exact (List.getLast?_append_of_ne_nil t hne).symm

theorem head?_prefix_of_ne_nil (l' l : List Char) (h : l' <+: l)
    (hne : l' ≠ []) : l'.head? = l.head? := by
  obtain ⟨t, rfl⟩ := h
  cases l' with
  | nil => exact absurd rfl hne
  | cons a u => rfl

theorem dropTrailing_pfx (p : Char → Bool) (l : List Char) :
    dropTrailing p l <+: l := by
  obtain ⟨t, ht⟩ := List.dropWhile_suffix (l := l.reverse) p
  refine ⟨t.reverse, ?_⟩
  rw [dropTrailing, ← List.reverse_append, ht, List.reverse_reverse]

theorem getLast?_dropTrailing_false (p : Char → Bool) (l : List Char)
    (a : Char) (h : (dropTrailing p l).getLast? = some a) : p a = false := by
  rw [dropTrailing, List.getLast?_reverse] at h
  exact head?_dropWhile_false p l.reverse a h

theorem getLast?_cons_of_ne_nil (a : Char) (x : List Char) (h : x ≠ []) :
    (a :: x).getLast? = x.getLast? := by
  cases x with
  | nil => exact absurd rfl h
  | cons y ys => exact List.getLast?_cons_cons

theorem squash_getLast (n : Nat) : ∀ (l : List Char), l.length ≤ n →
    l.getLast? ≠ some '_' → ∀ b,
    (squashUscoresGo b l).getLast? = l.getLast? := by
  induction n with
  | zero =>
    intro l hl _ b
    have : l = [] := List.eq_nil_of_length_eq_zero (by omega)
    subst this
    cases b <;> rfl
  | succ n ih =>
    intro l hl hlast b
    cases l with
    | nil => cases b <;> rfl
    | cons c cs =>
      by_cases hc : c = '_'
      · subst hc
        cases cs with
        | nil => exact absurd rfl hlast
        | cons d ds =>
          have hlast' : ('_' :: d :: ds).getLast? = (d :: ds).getLast? :=
            List.getLast?_cons_cons
          rw [hlast'] at hlast ⊢
          set u := List.dropWhile (fun c => decide (c = '_')) (d :: ds) with hu
          have hu_ne : u ≠ [] := by
            intro hnil
            have hall := List.dropWhile_eq_nil_iff.mp hnil
            have hsome : (d :: ds).getLast? =
                some ((d :: ds).getLast (by simp)) :=
              List.getLast?_eq_getLast _ _
            have hmem : (d :: ds).getLast (by simp) ∈ d :: ds :=
              List.mem_of_mem_getLast? hsome
            have : (d :: ds).getLast (by simp) = '_' :=
              of_decide_eq_true (hall _ hmem)
            exact hlast (by rw [hsome, this])
          have hu_len : u.length ≤ n := by
            have h1 : u.length ≤ (d :: ds).length :=
              (List.dropWhile_sublist _).length_le
            simp only [List.length_cons] at hl h1 ⊢
            omega
          have hu_last : u.getLast? = (d :: ds).getLast? :=
            getLast?_suffix_of_ne_nil u (d :: ds) (List.dropWhile_suffix _) hu_ne
          have hrec : (squashUscoresGo false u).getLast? = (d :: ds).getLast? := by
            rw [ih u hu_len (by rw [hu_last]; exact hlast) false, hu_last]
          have hgo_ne : squashUscoresGo false u ≠ [] :=
            squashUscoresGo_false_ne_nil u hu_ne
          cases b with
          | true =>
            rw [squashUscoresGo_cons, if_pos rfl, if_pos rfl,
              squashUscoresGo_true_eq_dropWhile]
            exact hrec
          | false =>
            rw [squashUscoresGo_cons, if_pos rfl,
              if_neg (by decide : ¬(false = true)),
              squashUscoresGo_true_eq_dropWhile,
              getLast?_cons_of_ne_nil _ _ hgo_ne]
            exact hrec
      · rw [squashUscoresGo_cons, if_neg hc]
        cases cs with
        | nil => rfl
        | cons d ds =>
          have hlast' : (c :: d :: ds).getLast? = (d :: ds).getLast? :=
            List.getLast?_cons_cons
          rw [hlast'] at hlast ⊢
          have hgo_ne : squashUscoresGo false (d :: ds) ≠ [] :=
            squashUscoresGo_false_ne_nil _ (by simp)
          rw [getLast?_cons_of_ne_nil _ _ hgo_ne]
          apply ih
          · simp only [List.length_cons] at hl ⊢; omega
          · exact hlast

theorem head?_append_left (a b : List Char) (h : a ≠ []) :
    (a ++ b).head? = a.head? := by
  cases a with
  | nil => exact absurd rfl h
  | cons x t => rfl

theorem c_dropTrailing_dots (l : List Char) (hb : noUscoreDot l)
    (hc : l.getLast? ≠ some '_') :
    (dropTrailing (fun c => c = '.') l).getLast? ≠ some '_' := by
  intro hcontra
  rw [dropTrailing, List.getLast?_reverse] at hcontra
  rcases htw : l.reverse.takeWhile (fun c => c = '.') with _ | ⟨e, es⟩
  · have hdw : l.reverse.dropWhile (fun c => c = '.') = l.reverse := by
      have := List.takeWhile_append_dropWhile
        (p := fun c => decide (c = '.')) (l := l.reverse)
      rw [htw] at this
      simpa using this
    rw [hdw, List.head?_reverse] at hcontra
    exact hc hcontra
  · have hchain : List.Chain' (flip fun a b => ¬(a = '_' ∧ b = '.'))
        l.reverse := by
      rw [List.chain'_reverse]
      exact hb
    have hsplit : l.reverse = (e :: es) ++
        l.reverse.dropWhile (fun c => c = '.') := by
      rw [← htw, List.takeWhile_append_dropWhile]
    rw [hsplit] at hchain
    have hjoin := (List.chain'_append.mp hchain).2.2
    have hsome : (e :: es).getLast? = some ((e :: es).getLast (by simp)) :=
      List.getLast?_eq_getLast _ _
    have hlastdot : (e :: es).getLast (by simp) = '.' := by
      have hmem : (e :: es).getLast (by simp) ∈ e :: es :=
        List.mem_of_mem_getLast? hsome
      have hmem2 : (e :: es).getLast (by simp) ∈
          List.takeWhile (fun c => decide (c = '.')) l.reverse := by
        rw [htw]; exact hmem
      exact of_decide_eq_true
        (List.mem_takeWhile_imp (p := fun c => decide (c = '.')) hmem2)
    have := hjoin ((e :: es).getLast (by simp)) (by rw [hsome]; rfl)
      '_' (by rw [hcontra]; rfl)
    rw [hlastdot] at this
    exact this ⟨rfl, rfl⟩

theorem chain'_of_no_uscore (r : Char → Char → Prop) (m : List Char)
    (hr : ∀ a b, ¬(a = '_') → r a b) (hm : ∀ c ∈ m, ¬(c = '_')) :
    m.Chain' r := by
  induction m with
  | nil => exact List.chain'_nil
  | cons a t ih =>
    refine List.chain'_cons'.mpr ⟨?_, ?_⟩
    · intro y _
      exact hr a y (hm a (List.mem_cons_self a t))
    · exact ih (fun c hc => hm c (List.mem_cons_of_mem a hc))

theorem multiDotCond_parts (l : List Char) (h : multiDotCond l = true) :
    1 ≤ (extOf l).length ∧ (extOf l).length ≤ 5 ∧ 3 ≤ (dotsOf l).length := by
  rw [multiDotCond] at h
  simp only [Bool.and_eq_true, decide_eq_true_eq] at h
  exact ⟨h.1.1, h.1.2, h.2⟩

theorem l_decomp_of_fired (l : List Char) :
    l = (preOf l).reverse ++ ((dotsOf l).reverse ++ (extOf l).reverse) := by
  have h := reverse_ext_decomp l
  have h2 := congrArg List.reverse h
  rw [List.reverse_reverse, List.reverse_append, List.reverse_append] at h2
  rw [List.append_assoc] at h2
  exact h2

theorem extChar_ne (e : Char) (h : isExtChar e = true) :
    ¬(e = '_') ∧ ¬(e = '.') := by
  constructor <;> intro h' <;> subst h' <;> exact absurd h (by decide)

theorem fix_head (l : List Char) (hD : l.head? ≠ some '.') :
    (fixMultiDotExt l).head? = l.head? := by
  by_cases h : multiDotCond l
  · have hparts := multiDotCond_parts l h
    have hl := l_decomp_of_fired l
    have hdots_ne : (dotsOf l).reverse ≠ [] := by
      intro hnil
      have := congrArg List.length hnil
      simp only [List.length_reverse, List.length_nil] at this
      omega
    have hpre_ne : preOf l ≠ [] := by
      intro hnil
      apply hD
      rw [hl, hnil, List.reverse_nil, List.nil_append,
        head?_append_left _ _ hdots_ne]
      rcases hdr : (dotsOf l).reverse with _ | ⟨x, xs⟩
      · exact absurd hdr hdots_ne
      · have hx : x ∈ dotsOf l := by
          have : x ∈ (dotsOf l).reverse := by rw [hdr]; exact List.mem_cons_self _ _
          exact List.mem_reverse.mp this
        rw [dotsOf_all l x hx]
        rfl
    have hpre_rev_ne : (preOf l).reverse ≠ [] := by
      intro hnil
      exact hpre_ne (by simpa using congrArg List.reverse hnil)
    rw [fixMultiDotExt_fired l h, head?_append_left _ _ hpre_rev_ne]
    conv_rhs => rw [hl]
    rw [head?_append_left _ _ hpre_rev_ne]
  · rw [fixMultiDotExt_not_fired l (Bool.eq_false_iff.mpr h)]

theorem fix_last (l : List Char) (hC : l.getLast? ≠ some '_')
    (hE : l.getLast? ≠ some '.') :
    (fixMultiDotExt l).getLast? ≠ some '_' ∧
    (fixMultiDotExt l).getLast? ≠ some '.' := by
  by_cases h : multiDotCond l
  · have hparts := multiDotCond_parts l h
    rcases hext : extOf l with _ | ⟨e, es⟩
    · rw [hext] at hparts; simp at hparts
    · have he_mem : e ∈ extOf l := by rw [hext]; exact List.mem_cons_self _ _
      have he := extChar_ne e (extOf_all l e he_mem)
      have hext_rev_ne : (extOf l).reverse ≠ [] := by
        rw [hext]; simp
      have hlast : (fixMultiDotExt l).getLast? = (extOf l).head? := by
        rw [fixMultiDotExt_fired l h,
          List.getLast?_append_of_ne_nil _ (List.cons_ne_nil _ _),
          getLast?_cons_of_ne_nil _ _ hext_rev_ne, List.getLast?_reverse]
      rw [hlast, hext]
      constructor <;> intro hcontra <;>
        [exact he.1 (by cases hcontra; rfl); exact he.2 (by cases hcontra; rfl)]
  · rw [fixMultiDotExt_not_fired l (Bool.eq_false_iff.mpr h)]
    exact ⟨hC, hE⟩

theorem chain_fix (l : List Char) (hBdot : noUscoreDot l)
    (hBuu : noDoubleUscore l) :
    noUscoreDot (fixMultiDotExt l) ∧ noDoubleUscore (fixMultiDotExt l) := by
  by_cases h : multiDotCond l
  · have hparts := multiDotCond_parts l h
    have hl := l_decomp_of_fired l
    have hdots_rev_ne : (dotsOf l).reverse ≠ [] := by
      intro hnil
      have := congrArg List.length hnil
      simp only [List.length_reverse, List.length_nil] at this
      omega
    have hpre_prefix : (preOf l).reverse <+: l :=
      ⟨(dotsOf l).reverse ++ (extOf l).reverse, hl.symm⟩
    have hext_no_u : ∀ c ∈ (extOf l).reverse, ¬(c = '_') := by
      intro c hc
      exact (extChar_ne c (extOf_all l c (List.mem_reverse.mp hc))).1
    have hdots_head : ∀ y, ((dotsOf l).reverse ++ (extOf l).reverse).head? =
        some y → y = '.' := by
      intro y hy
      rw [head?_append_left _ _ hdots_rev_ne] at hy
      have hmem : y ∈ (dotsOf l).reverse := mem_of_head?_eq _ _ hy
      exact dotsOf_all l y (List.mem_reverse.mp hmem)
    have hpre_last : ∀ x, (preOf l).reverse.getLast? = some x → ¬(x = '_') := by
      intro x hx hxu
      have hchain : List.Chain' (fun a b => ¬(a = '_' ∧ b = '.'))
          ((preOf l).reverse ++ ((dotsOf l).reverse ++ (extOf l).reverse)) := by
        rw [← hl]; exact hBdot
      have hjoin := (List.chain'_append.mp hchain).2.2
      rcases hh : ((dotsOf l).reverse ++ (extOf l).reverse).head? with _ | ⟨y⟩
      · rw [head?_append_left _ _ hdots_rev_ne] at hh
        rcases hd : (dotsOf l).reverse with _ | ⟨z, zs⟩
        · exact hdots_rev_ne hd
        · rw [hd] at hh; cases hh
      · have hy := hdots_head y hh
        have := hjoin x (by rw [hx]; rfl) y (by rw [hh]; rfl)
        subst hy
        exact this ⟨hxu, rfl⟩
    constructor
    · rw [fixMultiDotExt_fired l h]
      apply List.chain'_append.mpr
      refine ⟨ List.Chain'.prefix hBdot hpre_prefix, ?_, ?_⟩
      · apply List.chain'_cons'.mpr
        constructor
        · intro y _ hcontra
          cases hcontra.1
        · exact chain'_of_no_uscore _ _
            (fun a b ha hcontra => ha hcontra.1) hext_no_u
      · intro x hx y hy
        have hy' : y = '.' := by cases hy; rfl
        intro hcontra
        exact hpre_last x hx hcontra.1
    · rw [fixMultiDotExt_fired l h]
      apply List.chain'_append.mpr
      refine ⟨ List.Chain'.prefix hBuu hpre_prefix, ?_, ?_⟩
      · apply List.chain'_cons'.mpr
        constructor
        · intro y _ hcontra
          cases hcontra.1
        · exact chain'_of_no_uscore _ _
            (fun a b ha hcontra => ha hcontra.1) hext_no_u
      · intro x hx y hy
        have hy' : y = '.' := by cases hy; rfl
        intro hcontra
        rw [hy'] at hcontra
        cases hcontra.2
  · rw [fixMultiDotExt_not_fired l (Bool.eq_false_iff.mpr h)]
    exact ⟨hBdot, hBuu⟩

theorem normalizeFilenameChars_eq_pipeTail (l : List Char) :
    normalizeFilenameChars l =
      pipeTail (squashSpaces (stripChars (List.filter keptChar (nfkc l)))) :=
  rfl

theorem pipeTail_canonical (y : List Char)
    (hA1y : ∀ c ∈ y, c.toNat < 128)
    (hA2y : ∀ c ∈ y, keptChar c = true)
    (hA3y : ∀ c ∈ y, isSpaceChar c = false) :
    (∀ c ∈ pipeTail y, c.toNat < 128) ∧
    (∀ c ∈ pipeTail y, keptChar c = true) ∧
    (∀ c ∈ pipeTail y, isSpaceChar c = false) ∧
    noUscoreDot (pipeTail y) ∧
    noDoubleUscore (pipeTail y) ∧
    (pipeTail y).head? ≠ some '.' ∧
    (pipeTail y).getLast? ≠ some '.' ∧
    (pipeTail y).getLast? ≠ some '_' ∧
    multiDotCond (pipeTail y) = false := by
  set x4 := dropUscoreDot y with hx4
  set x5 := dropTrailing (fun c => c = '_') x4 with hx5
  set x6 := List.dropWhile (fun c => c = '.') x5 with hx6
  set x7 := dropTrailing (fun c => c = '.') x6 with hx7
  set x8 := squashUscores x7 with hx8
  have hdef : pipeTail y = fixMultiDotExt x8 := rfl
  have hA1x4 : ∀ c ∈ x4, c.toNat < 128 := by
    intro c hc
    rcases mem_dropUscoreDotGo 0 y c hc with h1 | h1
    · subst h1; decide
    · exact hA1y c h1
  have hA2x4 : ∀ c ∈ x4, keptChar c = true := by
    intro c hc
    rcases mem_dropUscoreDotGo 0 y c hc with h1 | h1
    · subst h1; decide
    · exact hA2y c h1
  have hA3x4 : ∀ c ∈ x4, isSpaceChar c = false := by
    intro c hc
    rcases mem_dropUscoreDotGo 0 y c hc with h1 | h1
    · subst h1; decide
    · exact hA3y c h1
  have hA1x5 : ∀ c ∈ x5, c.toNat < 128 :=
    fun c hc => hA1x4 c (mem_dropTrailing _ x4 c hc)
  have hA2x5 : ∀ c ∈ x5, keptChar c = true :=
    fun c hc => hA2x4 c (mem_dropTrailing _ x4 c hc)
  have hA3x5 : ∀ c ∈ x5, isSpaceChar c = false :=
    fun c hc => hA3x4 c (mem_dropTrailing _ x4 c hc)
  have hA1x6 : ∀ c ∈ x6, c.toNat < 128 :=
    fun c hc => hA1x5 c ((List.dropWhile_sublist _).mem hc)
  have hA2x6 : ∀ c ∈ x6, keptChar c = true :=
    fun c hc => hA2x5 c ((List.dropWhile_sublist _).mem hc)
  have hA3x6 : ∀ c ∈ x6, isSpaceChar c = false :=
    fun c hc => hA3x5 c ((List.dropWhile_sublist _).mem hc)
  have hA1x7 : ∀ c ∈ x7, c.toNat < 128 :=
    fun c hc => hA1x6 c (mem_dropTrailing _ x6 c hc)
  have hA2x7 : ∀ c ∈ x7, keptChar c = true :=
    fun c hc => hA2x6 c (mem_dropTrailing _ x6 c hc)
  have hA3x7 : ∀ c ∈ x7, isSpaceChar c = false :=
    fun c hc => hA3x6 c (mem_dropTrailing _ x6 c hc)
  have hA1x8 : ∀ c ∈ x8, c.toNat < 128 := by
    intro c hc
    rcases mem_squashUscoresGo false x7 c hc with h1 | h1
    · subst h1; decide
    · exact hA1x7 c h1
  have hA2x8 : ∀ c ∈ x8, keptChar c = true := by
    intro c hc
    rcases mem_squashUscoresGo false x7 c hc with h1 | h1
    · subst h1; decide
    · exact hA2x7 c h1
  have hA3x8 : ∀ c ∈ x8, isSpaceChar c = false := by
    intro c hc
    rcases mem_squashUscoresGo false x7 c hc with h1 | h1
    · subst h1; decide
    · exact hA3x7 c h1
  have hBdot4 : noUscoreDot x4 := noUscoreDot_dropUscoreDotGo y 0
  have hBdot5 : noUscoreDot x5 := List.Chain'.prefix hBdot4 (dropTrailing_pfx _ x4)
  have hC5 : x5.getLast? ≠ some '_' := by
    intro hcontra
    have := getLast?_dropTrailing_false _ x4 '_' hcontra
    simp at this
  have hBdot6 : noUscoreDot x6 := hBdot5.suffix (List.dropWhile_suffix _)
  have hD6 : x6.head? ≠ some '.' := by
    intro hcontra
    have := head?_dropWhile_false _ x5 '.' hcontra
    simp at this
  have hC6 : x6.getLast? ≠ some '_' := by
    rcases hx6nil : x6 with _ | ⟨a, t⟩
    · intro hcontra; cases hcontra
    · rw [← hx6nil]
      rw [getLast?_suffix_of_ne_nil x6 x5
        (by rw [hx6]; exact List.dropWhile_suffix _)
        (by rw [hx6nil]; exact List.cons_ne_nil _ _)]
      exact hC5
  have hBdot7 : noUscoreDot x7 := List.Chain'.prefix hBdot6 (dropTrailing_pfx _ x6)
  have hE7 : x7.getLast? ≠ some '.' := by
    intro hcontra
    have := getLast?_dropTrailing_false _ x6 '.' hcontra
    simp at this
  have hC7 : x7.getLast? ≠ some '_' := c_dropTrailing_dots x6 hBdot6 hC6
  have hD7 : x7.head? ≠ some '.' := by
    rcases hx7nil : x7 with _ | ⟨a, t⟩
    · intro hcontra; cases hcontra
    · rw [← hx7nil]
      rw [head?_prefix_of_ne_nil x7 x6
        (by rw [hx7]; exact dropTrailing_pfx _ x6)
        (by rw [hx7nil]; exact List.cons_ne_nil _ _)]
      exact hD6
  have hBuu8 : noDoubleUscore x8 := buu_squashUscoresGo x7.length x7 le_rfl
  have hBdot8 : noUscoreDot x8 := bdot_squashUscoresGo x7.length x7 le_rfl hBdot7
  have hlast8 : x8.getLast? = x7.getLast? :=
    squash_getLast x7.length x7 le_rfl hC7 false
  have hC8 : x8.getLast? ≠ some '_' := by rw [hlast8]; exact hC7
  have hE8 : x8.getLast? ≠ some '.' := by rw [hlast8]; exact hE7
  have hD8 : x8.head? ≠ some '.' := by
    rw [show x8.head? = x7.head? from head?_squashUscoresGo_false x7]
    exact hD7
  have hchains := chain_fix x8 hBdot8 hBuu8
  have hlasts := fix_last x8 hC8 hE8
  rw [hdef]
  refine ⟨?_, ?_, ?_, hchains.1, hchains.2, ?_, hlasts.2, hlasts.1,
    multiDotCond_fix x8⟩
  · intro c hc
    rcases mem_fixMultiDotExt x8 c hc with h1 | h1
    · subst h1; decide
    · exact hA1x8 c h1
  · intro c hc
    rcases mem_fixMultiDotExt x8 c hc with h1 | h1
    · subst h1; decide
    · exact hA2x8 c h1
  · intro c hc
    rcases mem_fixMultiDotExt x8 c hc with h1 | h1
    · subst h1; decide
    · exact hA3x8 c h1
  · rw [fix_head x8 hD8]
    exact hD8

theorem normalizeFilenameChars_canonical (x : List Char)
    (hx : ∀ c ∈ x, c.toNat < 128) :
    (∀ c ∈ normalizeFilenameChars x, c.toNat < 128) ∧
    (∀ c ∈ normalizeFilenameChars x, keptChar c = true) ∧
    (∀ c ∈ normalizeFilenameChars x, isSpaceChar c = false) ∧
    noUscoreDot (normalizeFilenameChars x) ∧
    noDoubleUscore (normalizeFilenameChars x) ∧
    (normalizeFilenameChars x).head? ≠ some '.' ∧
    (normalizeFilenameChars x).getLast? ≠ some '.' ∧
    (normalizeFilenameChars x).getLast? ≠ some '_' ∧
    multiDotCond (normalizeFilenameChars x) = false := by
  have hnf : nfkc x = x := hangulCompose_eq_self x hx
  have hA1x1 : ∀ c ∈ List.filter keptChar x, c.toNat < 128 :=
    fun c hc => hx c (List.mem_of_mem_filter hc)
  have hA2x1 : ∀ c ∈ List.filter keptChar x, keptChar c = true :=
    fun c hc => List.of_mem_filter hc
  have hA1x2 : ∀ c ∈ stripChars (List.filter keptChar x), c.toNat < 128 :=
    fun c hc => hA1x1 c (mem_stripChars _ c hc)
  have hA2x2 : ∀ c ∈ stripChars (List.filter keptChar x), keptChar c = true :=
    fun c hc => hA2x1 c (mem_stripChars _ c hc)
  have hA1y : ∀ c ∈ squashSpaces (stripChars (List.filter keptChar x)),
      c.toNat < 128 := by
    intro c hc
    rcases mem_squashSpacesGo false _ c hc with h1 | h1
    · subst h1; decide
    · exact hA1x2 c h1
  have hA2y : ∀ c ∈ squashSpaces (stripChars (List.filter keptChar x)),
      keptChar c = true := by
    intro c hc
    rcases mem_squashSpacesGo false _ c hc with h1 | h1
    · subst h1; decide
    · exact hA2x2 c h1
  have hA3y : ∀ c ∈ squashSpaces (stripChars (List.filter keptChar x)),
      isSpaceChar c = false :=
    fun c hc => squashSpaces_no_space false _ c hc
  have hres := pipeTail_canonical _ hA1y hA2y hA3y
  rw [normalizeFilenameChars_eq_pipeTail, hnf]
  exact hres

theorem pipeline_noop (w : List Char)
    (hA1 : ∀ c ∈ w, c.toNat < 128)
    (hA2 : ∀ c ∈ w, keptChar c = true)
    (hA3 : ∀ c ∈ w, isSpaceChar c = false)
    (hBdot : noUscoreDot w)
    (hBuu : noDoubleUscore w)
    (hD : w.head? ≠ some '.')
    (hE : w.getLast? ≠ some '.')
    (hC : w.getLast? ≠ some '_')
    (hcond : multiDotCond w = false) :
    normalizeFilenameChars w = w := by
  have e1 : nfkc w = w := hangulCompose_eq_self _ hA1
  have e2 : List.filter keptChar w = w := List.filter_eq_self.mpr hA2
  have e3 : stripChars w = w := stripChars_eq_self _ hA3
  have e4 : squashSpaces w = w := squashSpacesGo_eq_self false _ hA3
  have e5 : dropUscoreDot w = w := dropUscoreDot_eq_self _ hBdot
  have e6 : dropTrailing (fun c => c = '_') w = w :=
    dropTrailing_eq_self (fun c => c = '_') _ (fun c hc => by
      have : ¬(c = '_') := fun h' => hC (by rw [hc, h'])
      exact decide_eq_false this)
  have e7 : List.dropWhile (fun c => c = '.') w = w :=
    dropWhile_eq_self_of (fun c => c = '.') _ (fun c hc => by
      have : ¬(c = '.') := fun h' => hD (by rw [hc, h'])
      exact decide_eq_false this)
  have e8 : dropTrailing (fun c => c = '.') w = w :=
    dropTrailing_eq_self (fun c => c = '.') _ (fun c hc => by
      have : ¬(c = '.') := fun h' => hE (by rw [hc, h'])
      exact decide_eq_false this)
  have e9 : squashUscores w = w := squashUscoresGo_eq_self _ hBuu
  have e10 : fixMultiDotExt w = w := fixMultiDotExt_not_fired _ hcond
  conv_lhs => rw [normalizeFilenameChars_eq_pipeTail w, e1, e2, e3, e4,
    show pipeTail w =
      fixMultiDotExt (squashUscores (dropTrailing (fun c => c = '.')
        (List.dropWhile (fun c => c = '.') (dropTrailing (fun c => c = '_')
          (dropUscoreDot w))))) from rfl,
    e5, e6, e7, e8, e9, e10]

theorem pipeline_noop_conj (w : List Char)
    (h : (∀ c ∈ w, c.toNat < 128) ∧
      (∀ c ∈ w, keptChar c = true) ∧
      (∀ c ∈ w, isSpaceChar c = false) ∧
      noUscoreDot w ∧
      noDoubleUscore w ∧
      w.head? ≠ some '.' ∧
      w.getLast? ≠ some '.' ∧
      w.getLast? ≠ some '_' ∧
      multiDotCond w = false) :
    normalizeFilenameChars w = w :=
  pipeline_noop w h.1 h.2.1 h.2.2.1 h.2.2.2.1 h.2.2.2.2.1 h.2.2.2.2.2.1
    h.2.2.2.2.2.2.1 h.2.2.2.2.2.2.2.1 h.2.2.2.2.2.2.2.2

theorem normalizeFilenameChars_idem (x : List Char)
    (hx : ∀ c ∈ x, c.toNat < 128) :
    normalizeFilenameChars (normalizeFilenameChars x) =
      normalizeFilenameChars x :=
  pipeline_noop_conj (normalizeFilenameChars x)
    (normalizeFilenameChars_canonical x hx)

/-- C6 counterexample: `normalize_filename` is not idempotent.  On the
string `U+1100 "!" U+1161` (two Hangul jamo separated by a stripped
character) the first pass removes the `!`, leaving the two jamo adjacent;
the second pass's NFKC step composes them into the precomposed syllable
`U+AC00`, so a second application changes the string again. -/
theorem normalize_filename_not_idempotent_cx :
    normalize_filename "ᄀ!ᅡ" = "가" ∧
    normalize_filename (normalize_filename "ᄀ!ᅡ") = "가" ∧
    normalize_filename (normalize_filename "ᄀ!ᅡ") ≠
      normalize_filename "ᄀ!ᅡ" := by
  refine ⟨?_, ?_, ?_⟩ <;> decide

/-- C6 (amended): `normalize_filename` is idempotent on every ASCII
string; over full Unicode, idempotence fails because NFKC can compose
characters (such as Hangul jamo) that become adjacent only after
disallowed characters are stripped. -/
theorem normalize_filename_idempotent_ascii (s : String)
    (h : ∀ c ∈ s.data, c.toNat < 128) :
    normalize_filename (normalize_filename s) = normalize_filename s := by
  obtain ⟨l⟩ := s
  have hl : ∀ c ∈ l, c.toNat < 128 := h
  have e1 : normalize_filename (String.mk l) =
      String.mk (normalizeFilenameChars l) := rfl
  have e2 : normalize_filename (String.mk (normalizeFilenameChars l)) =
      String.mk (normalizeFilenameChars (normalizeFilenameChars l)) := rfl
  conv_rhs => rw [e1]
  conv_lhs => rw [e1, e2]
  exact congrArg String.mk (normalizeFilenameChars_idem l hl)

/-- C6 amended witness: a concrete hostile ASCII name. -/
theorem normalize_filename_idempotent_ascii_witness :
    normalize_filename (normalize_filename "  na?me*|<>..mp3 ") =
      normalize_filename "  na?me*|<>..mp3 " :=
  normalize_filename_idempotent_ascii "  na?me*|<>..mp3 " (by decide)
